import Mathlib

/-!
# Verification of `monkeygod/friction_h3_traversal.py`

A shallow embedding of the cost-weighted hex-graph search module:
the `H3CostGraph` cost model, the `PriorityQueue` frontier, the
`dijkstra_search` relaxation loop, `reconstruct_path`, and the
`calculate_travel_time` query entry point with its single-slot
result cache, together with theorems settling the specification's
claims about them.

Modelling conventions:
* Hex cells are opaque identifiers; the source uses H3 index strings,
  modelled here as `ℕ` with its total order standing in for the string
  order `heapq` uses to break priority ties.
* Costs are Python numbers, modelled as `ℚ`.
* Python dicts are insertion-ordered association lists with unique keys
  (`dictSet` replaces in place or appends).
* The unbounded while-loops are run on explicit fuel; `RunOutcome`
  records whether the loop exhausted its fuel or terminated the way the
  source program does (empty frontier, or the hex-goal break).
* External collaborators (the `h3` library's `geo_to_h3`, the loaded
  cost table and the CSV/file system) enter as parameters and explicit
  state, as the spec treats them: opaque, immutable inputs.
-/

namespace FrictionH3

/-- Hex-cell identifiers (H3 index strings in the source). -/
abbrev Cell := ℕ

/-- Traversal costs in minutes (Python floats in the source). -/
abbrev Cost := ℚ

/-! ## Hex cost index: class `H3CostGraph` -/

/-- `H3CostGraph`: the graph over hexagons.  `neighborsFn` models
`h3.hex_range(h, 1)` (library-provided grid adjacency, an arbitrary
finitely-branching neighbor function here, since the claims quantify
over cost graphs) and `costTable` models the dict loaded by
`get_travel_time_hexes_from_csv`, where `costTable c = none` means the
cell is absent from the table (or its row lacks a "value" entry). -/
structure H3CostGraph where
  neighborsFn : Cell → List Cell
  costTable : Cell → Option Cost

/-- `H3CostGraph.neighbors`: `return h3.hex_range(h, 1)`. -/
def H3CostGraph.neighbors (g : H3CostGraph) (h : Cell) : List Cell :=
  g.neighborsFn h

/-- `H3CostGraph.cost`: `return self.costs.get(current, {}).get("value", 20)`.
Note the source reads the table at `current` (the cell being left) and
ignores `next`; 20 minutes is the default for absent cells. -/
def H3CostGraph.cost (g : H3CostGraph) (current _next : Cell) : Cost :=
  (g.costTable current).getD 20

/-! ## Priority frontier: class `PriorityQueue`

The source stores `(priority, item)` pairs in a `heapq` binary heap;
`heappop` returns the least pair under Python tuple (lexicographic)
comparison.  The heap layout itself is unobservable, so the embedding
keeps the plain list of live entries and pops the lexicographic
minimum. -/

/-- Strict lexicographic order on `(priority, item)` frontier entries,
as Python compares the tuples held in the heap. -/
def entryLt (a b : Cost × Cell) : Bool :=
  a.1 < b.1 || (a.1 == b.1 && a.2 < b.2)

/-- `PriorityQueue.put`: `heapq.heappush(self.elements, (priority, item))`. -/
def pqPut (l : List (Cost × Cell)) (item : Cell) (priority : Cost) :
    List (Cost × Cell) :=
  (priority, item) :: l

/-- The least `(priority, item)` entry of the heap, if any. -/
def pqMin : List (Cost × Cell) → Option (Cost × Cell)
  | [] => none
  | x :: xs => some (xs.foldl (fun m y => if entryLt y m then y else m) x)

/-- Remove one occurrence of an entry from the list of live entries. -/
def removeEntry (m : Cost × Cell) : List (Cost × Cell) → List (Cost × Cell)
  | [] => []
  | x :: xs => if x = m then xs else x :: removeEntry m xs

/-- `PriorityQueue.get`: `heapq.heappop(self.elements)[1]`, i.e. remove
and return the least entry (`none` on an empty frontier, where the
source's loop guard has already exited). -/
def pqPop (l : List (Cost × Cell)) :
    Option ((Cost × Cell) × List (Cost × Cell)) :=
  match pqMin l with
  | none => none
  | some m => some (m, removeEntry m l)

/-! ## Python dicts -/

/-- Insertion-ordered dict write `d[k] = v`: replace the value in place
when the key is present, append a fresh entry otherwise. -/
def dictSet (k : Cell) (v : α) : List (Cell × α) → List (Cell × α)
  | [] => [(k, v)]
  | (k', v') :: rest =>
    if k' = k then (k, v) :: rest else (k', v') :: dictSet k v rest

/-! ## `dijkstra_search` -/

/-- The mutable state of the search loop: the frontier heap and the
`came_from` / `cost_so_far` dicts. -/
structure SearchState where
  frontier : List (Cost × Cell)
  came_from : List (Cell × Option Cell)
  cost_so_far : List (Cell × Cost)
deriving DecidableEq

/-- How a run of the search loop ended: the fuel the embedding supplies
ran out (an artifact, no counterpart in the source), the frontier
emptied, or the hex-goal break fired. -/
inductive RunOutcome
  | outOfFuel
  | emptied
  | reachedGoal
deriving DecidableEq

/-- A finished (or fuel-truncated) run: the final loop state, how the
loop ended, and — as instrumentation used only to state properties about
"cells popped from the frontier" and cache reuse — the list of popped
cells in pop order. -/
structure SearchResult where
  state : SearchState
  outcome : RunOutcome
  popped : List Cell
deriving DecidableEq

/-- Whether the ceiling branch
`if distance_goal is not None and priority >= distance_goal: continue`
prunes an enqueue at this priority. -/
def prunedAt (dg : Option Cost) (priority : Cost) : Bool :=
  match dg with
  | none => false
  | some c => decide (c ≤ priority)

/-- `new_cost = cost_so_far[current] + graph.cost(current, next)`.  The
dict read cannot fail on states the loop reaches (every popped cell has
a cost entry; see the invariants below), so the `getD 0` default is dead
on those states. -/
def newCost (g : H3CostGraph) (current : Cell) (s : SearchState) (n : Cell) :
    Cost :=
  (List.lookup current s.cost_so_far).getD 0 + g.cost current n

/-- The relaxation guard
`next not in cost_so_far or new_cost < cost_so_far[next]`. -/
def improvesC (s : SearchState) (n : Cell) (new_cost : Cost) : Bool :=
  match List.lookup n s.cost_so_far with
  | none => true
  | some old => decide (new_cost < old)

/-- One iteration of the inner `for next in graph.neighbors(current)`
body: compute `new_cost`, and on improvement record the cost and
predecessor and enqueue unless the ceiling prunes the push. -/
def relaxNeighbor (g : H3CostGraph) (dg : Option Cost) (current : Cell)
    (s : SearchState) (n : Cell) : SearchState :=
  let new_cost := newCost g current s n
  if improvesC s n new_cost then
    { frontier :=
        if prunedAt dg new_cost then s.frontier else pqPut s.frontier n new_cost
      came_from := dictSet n (some current) s.came_from
      cost_so_far := dictSet n new_cost s.cost_so_far }
  else s

/-- The whole neighbor loop of one popped cell. -/
def expand (g : H3CostGraph) (dg : Option Cost) (current : Cell)
    (s : SearchState) : SearchState :=
  (g.neighbors current).foldl (relaxNeighbor g dg current) s

/-- The `while not frontier.empty()` loop, on fuel: pop the least entry,
break if it is the hex goal, otherwise relax its neighbors and continue. -/
def dijkstraLoop (g : H3CostGraph) (hexGoal : Option Cell) (dg : Option Cost) :
    ℕ → SearchState → SearchResult
  | 0, s => ⟨s, .outOfFuel, []⟩
  | fuel + 1, s =>
    match pqPop s.frontier with
    | none => ⟨s, .emptied, []⟩
    | some ((_, current), rest) =>
      if hexGoal = some current then
        ⟨{ s with frontier := rest }, .reachedGoal, [current]⟩
      else
        let r := dijkstraLoop g hexGoal dg fuel
          (expand g dg current { s with frontier := rest })
        ⟨r.state, r.outcome, current :: r.popped⟩

/-- The initial state: frontier `[(0, start)]`, `came_from[start] = None`,
`cost_so_far[start] = 0`. -/
def initState (start : Cell) : SearchState :=
  { frontier := [(0, start)]
    came_from := [(start, none)]
    cost_so_far := [(start, 0)] }

/-- The truthiness test of
`assert hex_goal or distance_goal, "There must be a goal..."`.
Hex goals are H3 index strings, which are nonempty hence truthy whenever
present; a numeric `distance_goal` is truthy exactly when nonzero. -/
def assertCond (hexGoal : Option Cell) (dg : Option Cost) : Bool :=
  hexGoal.isSome ||
    (match dg with
     | none => false
     | some d => decide (d ≠ 0))

/-- `dijkstra_search(graph, start, hex_goal, distance_goal)`.  `none`
models the `AssertionError` raised before any search work when the
precondition fails; otherwise the loop runs from the initial state.  The
source returns `(came_from, cost_so_far)`; the result record carries
those two dicts inside the final state, plus the outcome and popped-cell
instrumentation. -/
def dijkstra_search (g : H3CostGraph) (start : Cell) (hexGoal : Option Cell)
    (dg : Option Cost) (fuel : ℕ) : Option SearchResult :=
  if assertCond hexGoal dg then
    some (dijkstraLoop g hexGoal dg fuel (initState start))
  else
    none

/-! ## `reconstruct_path` -/

/-- The `while current != start` walk of `reconstruct_path`, on fuel.
`none` models the source's failure modes: a `KeyError` on a cell missing
from `came_from` (including the walk stepping onto the `None` sentinel of
a non-start cell) or, via fuel exhaustion, the walk never reaching
`start`. -/
def reconstructLoop (came_from : List (Cell × Option Cell))
    (cost_so_far : List (Cell × Cost)) (start : Cell) :
    ℕ → Cell → List (Cell × Cost) → Option (List (Cell × Cost))
  | 0, _, _ => none
  | fuel + 1, current, path =>
    if current = start then some (dictSet start 0 path)
    else
      let path' := dictSet current ((List.lookup current cost_so_far).getD 0) path
      match List.lookup current came_from with
      | some (some prev) => reconstructLoop came_from cost_so_far start fuel prev path'
      | some none => none
      | none => none

/-- `reconstruct_path(came_from, cost_so_far, start, goal)`: walk the
predecessor links back from `goal`, collecting each visited cell's cost
(`cost_so_far.get(current, 0)`), then force `path[start] = 0`. -/
def reconstruct_path (came_from : List (Cell × Option Cell))
    (cost_so_far : List (Cell × Cost)) (start goal : Cell) (fuel : ℕ) :
    Option (List (Cell × Cost)) :=
  reconstructLoop came_from cost_so_far start fuel goal []

/-! ## `calculate_travel_time` -/

/-- A latitude/longitude pair. -/
abbrev LatLon := ℚ × ℚ

/-- A persisted cost surface: the `(hex, cost)` rows of the DataFrame
built from `cost_so_far` (the constant `origin` column is the store key). -/
abbrev Surface := List (Cell × Cost)

/-- The world `calculate_travel_time` touches: the two origin-keyed
output files (`hex_isochrone_{origin}.gz`, `hex_path_{origin}.gz`, keyed
here by the origin cell that determines the file name) and the global
single-slot `temp_df_cache` (a dict that is always cleared before each
insert, keyed by the isochrone file identity). -/
structure Store where
  diskIso : List (Cell × Surface)
  diskPath : List (Cell × Surface)
  cache : List (Cell × Surface)
deriving DecidableEq

/-- Instrumentation of one `calculate_travel_time` call, as the spec's
cache test demands ("verified by instrumentation / call counting"):
how many frontier pops the underlying search performed during this call
and whether the isochrone surface was re-read from disk. -/
structure CallStats where
  searchPops : ℕ
  readDisk : Bool
deriving DecidableEq

/-- `calculate_travel_time(start, hex_goal, distance_goal=3000, hex_res=6)`.

`geoToH3` models `h3.geo_to_h3` (external library).  Mirrors the source:
snap both endpoints; run `dijkstra_search(g, start_hex, hex_goal=hex_goal)`
— the source's `TODO accommodate both hex and distance goals` leaves
`distance_goal` out of the call — write the surface, clear and fill the
cache, reconstruct the path and write it, then look the surface up
cache-first (reloading from disk on a miss) and return the goal row's
cost, or `distance_goal` on the `IndexError` of an absent goal row.
`none` models an uncaught exception (a `KeyError` in `reconstruct_path`,
a missing file) or, as an artifact, fuel exhaustion. -/
def calculate_travel_time (g : H3CostGraph) (geoToH3 : LatLon → ℕ → Cell)
    (store : Store) (start hex_goal : LatLon) (distance_goal : Cost)
    (hex_res : ℕ) (fuel : ℕ) : Option (Cost × Store × CallStats) :=
  let start_hex := geoToH3 start hex_res
  let goal_hex := geoToH3 hex_goal hex_res
  match dijkstra_search g start_hex (some goal_hex) none fuel with
  | none => none
  | some r =>
    if r.outcome = RunOutcome.outOfFuel then none
    else
      let df : Surface := r.state.cost_so_far
      let store1 : Store :=
        { store with
          diskIso := dictSet start_hex df store.diskIso
          cache := [(start_hex, df)] }
      match reconstruct_path r.state.came_from r.state.cost_so_far
          start_hex goal_hex fuel with
      | none => none
      | some path =>
        let store2 : Store :=
          { store1 with diskPath := dictSet start_hex path store1.diskPath }
        match List.lookup start_hex store2.cache with
        | some iso_df =>
          some ((List.lookup goal_hex iso_df).getD distance_goal, store2,
            ⟨r.popped.length, false⟩)
        | none =>
          match List.lookup start_hex store2.diskIso with
          | some iso_df =>
            let store3 : Store := { store2 with cache := [(start_hex, iso_df)] }
            some ((List.lookup goal_hex iso_df).getD distance_goal, store3,
              ⟨r.popped.length, true⟩)
          | none => none

/-! ## Paths in the implicit hex graph -/

/-- `IsPathFromTo g s t p`: `p` lists the cells of a walk from `s` to
`t` along grid adjacency. -/
def IsPathFromTo (g : H3CostGraph) (s t : Cell) (p : List Cell) : Prop :=
  p.head? = some s ∧ p.getLast? = some t ∧
    List.Chain' (fun a b => b ∈ g.neighbors a) p

/-- The cumulative traversal cost of a walk: the sum of
`graph.cost(current, next)` over its steps. -/
def pathCost (g : H3CostGraph) : List Cell → Cost
  | [] => 0
  | [_] => 0
  | a :: b :: rest => g.cost a b + pathCost g (b :: rest)

/-- `val` is the least cumulative cost of any walk from `start` to `v`:
it is attained by some walk and bounds every walk from below (the
brute-force shortest-path value). -/
def OptimalCostTo (g : H3CostGraph) (start v : Cell) (val : Cost) : Prop :=
  (∃ p, IsPathFromTo g start v p ∧ pathCost g p = val) ∧
  ∀ p, IsPathFromTo g start v p → val ≤ pathCost g p

/-- `x` clears the pruning ceiling: below it when one is set, always
when `distance_goal is None`. -/
def BelowCeil (dg : Option Cost) (x : Cost) : Prop :=
  ∀ C, dg = some C → x < C

/-! ## Search-loop invariants -/

/-- The edge `(u, n)` has been relaxed: `n`'s recorded cost is at most
`u`'s recorded cost plus the traversal cost out of `u`. -/
def RelaxedAt (g : H3CostGraph) (s : SearchState) (u n : Cell) : Prop :=
  ∃ vu vn, List.lookup u s.cost_so_far = some vu ∧
    List.lookup n s.cost_so_far = some vn ∧ vn ≤ vu + g.cost u n

/-- `PredSeg came c t l`: following the `came_from` links from `c`
through the cells of `l` ends at `t`. -/
inductive PredSeg (came : List (Cell × Option Cell)) :
    Cell → Cell → List Cell → Prop
  | base (c) : PredSeg came c c []
  | step {c c' t l} : List.lookup c came = some (some c') →
      PredSeg came c' t l → PredSeg came c t (c' :: l)

/-- The loop invariant of `dijkstra_search` (for non-negative costs),
relative to the set `popped` of cells popped so far:
* `keys_eq` — `came_from` and `cost_so_far` always share their key set;
* `start_pred`, `start_cost` — the start cell keeps its initial entries;
* `realizable` — every recorded cost is the cost of an actual walk;
* `edge_bound` — each predecessor link was a relaxation, so the child's
  recorded cost still dominates the parent's plus the edge cost;
* `chains` — predecessor links from any recorded cell lead to `start`;
* `frontier_costed` — every live frontier entry is for a recorded cell
  whose current cost is at most the entry's (possibly stale) priority;
* `frontier_ceil` — apart from the initial `(0, start)` entry, every
  entry was enqueued below the ceiling;
* `popped_opt` — popped cells carry least-cost values;
* `unpopped_entry` — a recorded, not-yet-popped cell below the ceiling
  has a live frontier entry at exactly its recorded cost. -/
structure CoreInv (g : H3CostGraph) (start : Cell) (dg : Option Cost)
    (s : SearchState) (popped : List Cell) : Prop where
  keys_eq : ∀ c, (List.lookup c s.came_from).isSome =
    (List.lookup c s.cost_so_far).isSome
  start_pred : List.lookup start s.came_from = some none
  start_cost : List.lookup start s.cost_so_far = some 0
  realizable : ∀ c v, List.lookup c s.cost_so_far = some v →
    ∃ p, IsPathFromTo g start c p ∧ pathCost g p = v
  edge_bound : ∀ b a, List.lookup b s.came_from = some (some a) →
    ∃ vb va, List.lookup b s.cost_so_far = some vb ∧
      List.lookup a s.cost_so_far = some va ∧ va + g.cost a b ≤ vb
  chains : ∀ c, (List.lookup c s.cost_so_far).isSome →
    ∃ l, PredSeg s.came_from c start l
  frontier_costed : ∀ q u, (q, u) ∈ s.frontier →
    ∃ v, List.lookup u s.cost_so_far = some v ∧ v ≤ q
  frontier_ceil : ∀ q u, (q, u) ∈ s.frontier →
    BelowCeil dg q ∨ (q = 0 ∧ u = start)
  popped_opt : ∀ u ∈ popped, ∃ v, List.lookup u s.cost_so_far = some v ∧
    ∀ p, IsPathFromTo g start u p → v ≤ pathCost g p
  unpopped_entry : ∀ u v, List.lookup u s.cost_so_far = some v →
    u ∉ popped → BelowCeil dg v → (v, u) ∈ s.frontier

/-- The full invariant: the core plus the fact that every popped cell
has had all of its out-edges relaxed. -/
structure Inv (g : H3CostGraph) (start : Cell) (dg : Option Cost)
    (s : SearchState) (popped : List Cell) : Prop where
  core : CoreInv g start dg s popped
  popped_relaxed : ∀ u ∈ popped, ∀ n ∈ g.neighbors u, RelaxedAt g s u n

/-! ## Termination measure (used for the bounded-search termination claim)

With every per-cell cost at least `ε > 0` and ceiling `C`, all costs the
search ever records are costs of walks of at most `N` edges, for a
suitable `N`.  The measure counts, per reachable cell, how many such walk
costs still lie strictly below the recorded cost (so each relaxation
strictly shrinks it), plus the frontier size. -/

/-- All reversed walks from `start` of at most `n` edges (the head of
each listed walk is its endpoint).  Duplicates are irrelevant; only
membership matters. -/
def revPathsN (g : H3CostGraph) (start : Cell) : ℕ → List (List Cell)
  | 0 => [[start]]
  | n + 1 => revPathsN g start n ++
      (revPathsN g start n).flatMap (fun p =>
        match p with
        | [] => []
        | c :: _ => (g.neighbors c).map (fun m => m :: c :: p.tail))

/-- The costs of all walks from `start` to `u` of at most `N` edges. -/
def pathCostsTo (g : H3CostGraph) (start : Cell) (N : ℕ) (u : Cell) :
    Finset Cost :=
  (((revPathsN g start N).filter (fun p => p.head? = some u)).map
    (fun p => pathCost g p.reverse)).toFinset

/-- All endpoints of walks from `start` of at most `N` edges. -/
def cellsFin (g : H3CostGraph) (start : Cell) (N : ℕ) : Finset Cell :=
  ((revPathsN g start N).filterMap List.head?).toFinset

/-- How many admissible walk costs to `u` still lie strictly below `u`'s
recorded cost (all of them when `u` has no recorded cost yet). -/
def phiCell (g : H3CostGraph) (start : Cell) (N : ℕ) (s : SearchState)
    (u : Cell) : ℕ :=
  match List.lookup u s.cost_so_far with
  | none => (pathCostsTo g start N u).card
  | some v => ((pathCostsTo g start N u).filter (fun x => x < v)).card

/-- The termination measure: remaining possible relaxations plus live
frontier entries.  Each loop iteration strictly decreases it. -/
def searchMeasure (g : H3CostGraph) (start : Cell) (N : ℕ)
    (s : SearchState) : ℕ :=
  (cellsFin g start N).sum (phiCell g start N s) + s.frontier.length

/-! ## Concrete instances used by witnesses and counterexamples -/

/-- The store `calculate_travel_time` leaves behind after one query from
cell 0 toward cell 3 on `chainGraph` (surface, least-cost path, and the
warm single-slot cache). -/
def warmStore : Store where
  diskIso := [(0, [(0, 0), (1, 10), (2, 20), (3, 30)])]
  diskPath := [(0, [(3, 30), (2, 20), (1, 10), (0, 0)])]
  cache := [(0, [(0, 0), (1, 10), (2, 20), (3, 30)])]

/-- A five-edge chain `0 → 1 → ⋯ → 5`, every cell costing 10 minutes. -/
def chainGraph : H3CostGraph where
  neighborsFn := fun n => if n < 5 then [n + 1] else []
  costTable := fun _ => some 10

/-- A snapping function placing one query point at cell 0 and every
other point at cell 3. -/
def snapChain : LatLon → ℕ → Cell :=
  fun p _ => if p = ((1 : ℚ), (1 : ℚ)) then 0 else 3

/-- A graph whose cells have no neighbors at all (so any non-start goal
is unreachable), every cell costing 1 minute. -/
def loneGraph : H3CostGraph where
  neighborsFn := fun _ => []
  costTable := fun _ => some 1

/-- Cell 0 costs 5 and points at cell 1, which is absent from the cost
table: relaxing `0 → 1` distinguishes the exited cell's cost (5) from
the entered cell's defaulted cost (20). -/
def exitCostGraph : H3CostGraph where
  neighborsFn := fun n => if n = 0 then [1] else []
  costTable := fun n => if n = 0 then some 5 else none

/-! # Theorems

## Dictionary lemmas -/

theorem lookup_cons (c k : Cell) (v : α) (d : List (Cell × α)) :
    List.lookup c ((k, v) :: d) = if c = k then some v else List.lookup c d := by
  by_cases h : c = k
  · subst h
    rw [if_pos rfl]
    show (match c == c with
      | true => some v
      | false => List.lookup c d) = some v
    rw [beq_self_eq_true]
  · rw [if_neg h]
    show (match c == k with
      | true => some v
      | false => List.lookup c d) = List.lookup c d
    rw [show (c == k) = false from by simpa [beq_eq_false_iff_ne] using h]

theorem lookup_dictSet_self (k : Cell) (v : α) (d : List (Cell × α)) :
    List.lookup k (dictSet k v d) = some v := by
  induction d with
  | nil => simp [dictSet, lookup_cons]
  | cons hd tl ih =>
    obtain ⟨k', v'⟩ := hd
    by_cases h : k' = k
    · subst h
      simp [dictSet, lookup_cons]
    · simp only [dictSet, if_neg h, lookup_cons, if_neg (Ne.symm h)]
      exact ih

theorem lookup_dictSet_ne (c k : Cell) (v : α) (d : List (Cell × α))
    (h : c ≠ k) : List.lookup c (dictSet k v d) = List.lookup c d := by
  induction d with
  | nil => simp [dictSet, lookup_cons, h]
  | cons hd tl ih =>
    obtain ⟨k', v'⟩ := hd
    by_cases hk : k' = k
    · subst hk
      simp [dictSet, lookup_cons, h]
    · simp only [dictSet, if_neg hk, lookup_cons]
      by_cases hc : c = k'
      · simp [hc]
      · rw [if_neg hc, if_neg hc]
        exact ih

theorem dictSet_of_lookup_none {k : Cell} {v : α} {d : List (Cell × α)}
    (h : List.lookup k d = none) : dictSet k v d = d ++ [(k, v)] := by
  induction d with
  | nil => simp [dictSet]
  | cons hd tl ih =>
    obtain ⟨k', v'⟩ := hd
    rw [lookup_cons] at h
    by_cases hk : k = k'
    · rw [if_pos hk] at h
      exact absurd h (by simp)
    · rw [if_neg hk] at h
      have hk' : ¬ k' = k := fun e => hk e.symm
      simp [dictSet, hk', ih h]

theorem lookup_dictSet_isSome (c k : Cell) (v : α) (d : List (Cell × α)) :
    (List.lookup c (dictSet k v d)).isSome =
      (c == k || (List.lookup c d).isSome) := by
  by_cases h : c = k
  · subst h
    simp [lookup_dictSet_self]
  · simp [lookup_dictSet_ne c k v d h, beq_iff_eq, h]

/-! ## Priority-queue lemmas -/

theorem entryLt_first {y m : Cost × Cell} (h : entryLt y m = true) :
    y.1 ≤ m.1 := by
  simp only [entryLt, Bool.or_eq_true, Bool.and_eq_true, decide_eq_true_eq,
    beq_iff_eq] at h
  rcases h with h | ⟨h, _⟩
  · exact le_of_lt h
  · exact le_of_eq h

theorem entryLt_first_not {y m : Cost × Cell} (h : ¬ entryLt y m = true) :
    m.1 ≤ y.1 := by
  simp only [entryLt, Bool.or_eq_true, Bool.and_eq_true, decide_eq_true_eq,
    beq_iff_eq, not_or, not_and] at h
  exact le_of_not_lt h.1

theorem pqFold_spec (xs : List (Cost × Cell)) (acc : Cost × Cell) :
    (xs.foldl (fun m y => if entryLt y m then y else m) acc = acc ∨
      xs.foldl (fun m y => if entryLt y m then y else m) acc ∈ xs) ∧
    (xs.foldl (fun m y => if entryLt y m then y else m) acc).1 ≤ acc.1 ∧
    ∀ x ∈ xs, (xs.foldl (fun m y => if entryLt y m then y else m) acc).1 ≤ x.1 := by
  induction xs generalizing acc with
  | nil => simp
  | cons y ys ih =>
    simp only [List.foldl_cons]
    by_cases h : entryLt y acc
    · rw [if_pos h]
      obtain ⟨hmem, hle, hall⟩ := ih y
      refine ⟨?_, le_trans hle (entryLt_first h), ?_⟩
      · rcases hmem with hmem | hmem
        · exact Or.inr (by simp [hmem])
        · exact Or.inr (List.mem_cons_of_mem _ hmem)
      · intro x hx
        rcases List.mem_cons.mp hx with rfl | hx
        · exact hle
        · exact hall x hx
    · rw [if_neg h]
      obtain ⟨hmem, hle, hall⟩ := ih acc
      refine ⟨?_, hle, ?_⟩
      · rcases hmem with hmem | hmem
        · exact Or.inl hmem
        · exact Or.inr (List.mem_cons_of_mem _ hmem)
      · intro x hx
        rcases List.mem_cons.mp hx with rfl | hx
        · exact le_trans hle (entryLt_first_not h)
        · exact hall x hx

theorem pqMin_spec {l : List (Cost × Cell)} {m : Cost × Cell}
    (h : pqMin l = some m) : m ∈ l ∧ ∀ x ∈ l, m.1 ≤ x.1 := by
  match l with
  | [] => simp [pqMin] at h
  | x :: xs =>
    simp only [pqMin, Option.some.injEq] at h
    obtain ⟨hmem, hle, hall⟩ := pqFold_spec xs x
    subst h
    constructor
    · rcases hmem with hmem | hmem
      · simp [hmem]
      · exact List.mem_cons_of_mem _ hmem
    · intro z hz
      rcases List.mem_cons.mp hz with rfl | hz
      · exact hle
      · exact hall z hz

theorem pqMin_none {l : List (Cost × Cell)} : pqMin l = none ↔ l = [] := by
  cases l <;> simp [pqMin]

theorem removeEntry_subset {m x : Cost × Cell} {l : List (Cost × Cell)}
    (h : x ∈ removeEntry m l) : x ∈ l := by
  induction l with
  | nil => simp [removeEntry] at h
  | cons y ys ih =>
    simp only [removeEntry] at h
    by_cases hy : y = m
    · rw [if_pos hy] at h
      exact List.mem_cons_of_mem _ h
    · rw [if_neg hy] at h
      rcases List.mem_cons.mp h with rfl | h
      · exact List.mem_cons_self _ _
      · exact List.mem_cons_of_mem _ (ih h)

theorem mem_removeEntry {m x : Cost × Cell} {l : List (Cost × Cell)}
    (hx : x ∈ l) (hne : x ≠ m) : x ∈ removeEntry m l := by
  induction l with
  | nil => simp at hx
  | cons y ys ih =>
    simp only [removeEntry]
    by_cases hy : y = m
    · rw [if_pos hy]
      rcases List.mem_cons.mp hx with rfl | hx
      · exact absurd hy hne
      · exact hx
    · rw [if_neg hy]
      rcases List.mem_cons.mp hx with rfl | hx
      · exact List.mem_cons_self _ _
      · exact List.mem_cons_of_mem _ (ih hx)

theorem removeEntry_length {m : Cost × Cell} {l : List (Cost × Cell)}
    (h : m ∈ l) : (removeEntry m l).length + 1 = l.length := by
  induction l with
  | nil => simp at h
  | cons y ys ih =>
    simp only [removeEntry]
    by_cases hy : y = m
    · rw [if_pos hy]
      simp
    · rw [if_neg hy]
      rcases List.mem_cons.mp h with rfl | h
      · exact absurd rfl hy
      · simpa using ih h

theorem pqPop_spec {l rest : List (Cost × Cell)} {e : Cost × Cell}
    (h : pqPop l = some (e, rest)) :
    e ∈ l ∧ rest = removeEntry e l ∧ ∀ x ∈ l, e.1 ≤ x.1 := by
  simp only [pqPop] at h
  cases hm : pqMin l with
  | none => rw [hm] at h; simp at h
  | some m =>
    rw [hm] at h
    simp only [Option.some.injEq, Prod.mk.injEq] at h
    obtain ⟨rfl, rfl⟩ := h
    obtain ⟨hmem, hall⟩ := pqMin_spec hm
    exact ⟨hmem, rfl, hall⟩

theorem pqPop_none {l : List (Cost × Cell)} : pqPop l = none ↔ l = [] := by
  simp only [pqPop]
  cases hm : pqMin l with
  | none => simpa using pqMin_none.mp hm
  | some m =>
    constructor
    · intro h
      simp at h
    · intro h
      subst h
      simp [pqMin] at hm

/-! ## Generic preservation lemmas for the search loop -/

theorem foldl_preserve {β α : Type} {P : β → Prop} {f : β → α → β}
    (hf : ∀ s a, P s → P (f s a)) (l : List α) :
    ∀ s, P s → P (l.foldl f s) := by
  induction l with
  | nil => intro s h; simpa using h
  | cons x xs ih =>
    intro s h
    rw [List.foldl_cons]
    exact ih _ (hf s x h)

theorem dijkstraLoop_state_preserve {g : H3CostGraph} {hexGoal : Option Cell}
    {dg : Option Cost} {P : SearchState → Prop}
    (hpop : ∀ s e rest, pqPop s.frontier = some (e, rest) → P s →
      P { s with frontier := rest })
    (hrelax : ∀ s current n, P s → P (relaxNeighbor g dg current s n)) :
    ∀ fuel s, P s → P (dijkstraLoop g hexGoal dg fuel s).state := by
  intro fuel
  induction fuel with
  | zero =>
    intro s h
    simpa [dijkstraLoop] using h
  | succ k ih =>
    intro s h
    rw [dijkstraLoop]
    cases hp : pqPop s.frontier with
    | none => exact h
    | some pr =>
      obtain ⟨⟨q, current⟩, rest⟩ := pr
      dsimp only
      by_cases hg : hexGoal = some current
      · rw [if_pos hg]
        exact hpop s (q, current) rest hp h
      · rw [if_neg hg]
        exact ih _ (foldl_preserve (fun s' n h' => hrelax s' current n h') _ _
          (hpop s (q, current) rest hp h))

/-! ## Per-relaxation facts -/

theorem relax_keysEq {g : H3CostGraph} {dg : Option Cost} {current n : Cell}
    {s : SearchState}
    (h : ∀ c, (List.lookup c s.came_from).isSome =
      (List.lookup c s.cost_so_far).isSome) :
    ∀ c, (List.lookup c (relaxNeighbor g dg current s n).came_from).isSome =
      (List.lookup c (relaxNeighbor g dg current s n).cost_so_far).isSome := by
  intro c
  simp only [relaxNeighbor]
  by_cases himp : improvesC s n (newCost g current s n) = true
  · rw [if_pos himp]
    simp only [lookup_dictSet_isSome]
    rw [h c]
  · rw [if_neg himp]
    exact h c

theorem relax_lookup_some_mono {g : H3CostGraph} {dg : Option Cost}
    {current n c : Cell} {s : SearchState}
    (h : (List.lookup c s.cost_so_far).isSome = true) :
    (List.lookup c (relaxNeighbor g dg current s n).cost_so_far).isSome = true := by
  simp only [relaxNeighbor]
  by_cases himp : improvesC s n (newCost g current s n) = true
  · rw [if_pos himp]
    simp only [lookup_dictSet_isSome]
    rw [h]
    simp
  · rw [if_neg himp]
    exact h

theorem relax_frontier_mem {g : H3CostGraph} {dg : Option Cost}
    {current n : Cell} {s : SearchState} {q : Cost} {u : Cell}
    (h : (q, u) ∈ (relaxNeighbor g dg current s n).frontier) :
    (q, u) ∈ s.frontier ∨
      (prunedAt dg q = false ∧ q = newCost g current s n ∧ u = n) := by
  simp only [relaxNeighbor] at h
  by_cases himp : improvesC s n (newCost g current s n) = true
  · rw [if_pos himp] at h
    simp only at h
    by_cases hpr : prunedAt dg (newCost g current s n) = true
    · rw [if_pos hpr] at h
      exact Or.inl h
    · rw [if_neg hpr] at h
      rcases List.mem_cons.mp h with heq | h
      · rw [Prod.mk.injEq] at heq
        obtain ⟨h1, h2⟩ := heq
        subst h1
        subst h2
        exact Or.inr ⟨by simpa using hpr, rfl, rfl⟩
      · exact Or.inl h
  · rw [if_neg himp] at h
    exact Or.inl h

/-! ## Unfolding bundles for concrete evaluations

The concrete counterexamples and witnesses evaluate whole runs of the
embedded program by rewriting; this is the lemma bundle they unfold. -/

theorem dictSet_nil (k : Cell) (v : α) : dictSet k v [] = [(k, v)] := rfl

/-! ## Claim theorems -/

/-- C2 (code bug — the ceiling is never handed to the search):
`calculate_travel_time` with `cost_ceiling = 5` on a uniform-cost-10
chain returns a cost of 30: the search expanded every cell of the chain
(4 pops; the surface records costs 10, 20, 30, all at or above the
ceiling), because line 204 calls `dijkstra_search(g, start_hex,
hex_goal=hex_goal)` and — per the source's own
`TODO accommodate both hex and distance goals` — never passes
`distance_goal`.  The last conjunct shows what the claimed bounded
search would do: with the ceiling applied, only the start cell is
expanded and the search stops at the boundary. -/
theorem calculate_travel_time_ignores_ceiling :
    calculate_travel_time chainGraph snapChain ⟨[], [], []⟩ (1, 1) (2, 2) 5 6 30 =
      some (30, warmStore, ⟨4, false⟩) ∧
    (5 : Cost) < 30 ∧
    (dijkstra_search chainGraph 0 (some 3) (some 5) 30).map
      (fun r => (r.state.cost_so_far, r.popped)) = some ([(0, 0), (1, 10)], [0]) := by
  refine ⟨?_, by norm_num, ?_⟩ <;>
  · norm_num [-Prod.mk_zero_zero, calculate_travel_time, dijkstra_search, assertCond,
      dijkstraLoop, initState, expand, relaxNeighbor, newCost, improvesC, prunedAt,
      pqPut, pqPop, pqMin, entryLt, removeEntry, dictSet, lookup_cons,
      reconstruct_path, reconstructLoop, chainGraph, snapChain, warmStore,
      H3CostGraph.cost, H3CostGraph.neighbors]
    try exact fun h => RunOutcome.noConfusion h

/-- C3 counterexample: with the memory cache warm from an identical
first call (`warmStore` is exactly the store that first call produces
from an empty store), the repeated call returns the identical result but
its underlying search still performs 4 frontier pops — the Dijkstra
relaxation is re-run in full, contradicting the claim that the warm
cache prevents re-running it. -/
theorem warm_cache_second_call_reruns_search :
    calculate_travel_time chainGraph snapChain ⟨[], [], []⟩ (1, 1) (2, 2) 5 6 30 =
      some (30, warmStore, ⟨4, false⟩) ∧
    calculate_travel_time chainGraph snapChain warmStore (1, 1) (2, 2) 5 6 30 =
      some (30, warmStore, ⟨4, false⟩) ∧
    (4 : ℕ) ≠ 0 := by
  refine ⟨?_, ?_, by norm_num⟩ <;>
  · norm_num [-Prod.mk_zero_zero, calculate_travel_time, dijkstra_search, assertCond,
      dijkstraLoop, initState, expand, relaxNeighbor, newCost, improvesC, prunedAt,
      pqPut, pqPop, pqMin, entryLt, removeEntry, dictSet, lookup_cons,
      reconstruct_path, reconstructLoop, chainGraph, snapChain, warmStore,
      H3CostGraph.cost, H3CostGraph.neighbors]
    try exact fun h => RunOutcome.noConfusion h

/-- C3 (amended): consecutive same-argument calls do return identical
results — the returned cost and instrumentation are independent of the
incoming store, the cache/disk state never feeds back into the result —
but the second call re-runs the search rather than serving it from the
warm cache: every successful call performs the full, strictly positive
number of frontier pops of a fresh `dijkstra_search` run.  The cache
only spares the re-read of the surface file the call itself just wrote
(`readDisk = false`). -/
theorem calculate_travel_time_always_reruns_search
    (g : H3CostGraph) (geoToH3 : LatLon → ℕ → Cell) (st st' : Store)
    (start goal : LatLon) (dgl : Cost) (res fuel : ℕ) :
    (calculate_travel_time g geoToH3 st start goal dgl res fuel).map
        (fun r => (r.1, r.2.2)) =
      (calculate_travel_time g geoToH3 st' start goal dgl res fuel).map
        (fun r => (r.1, r.2.2)) ∧
    (∀ r, calculate_travel_time g geoToH3 st start goal dgl res fuel = some r →
      r.2.2.readDisk = false ∧ 0 < r.2.2.searchPops ∧
      some r.2.2.searchPops =
        (dijkstra_search g (geoToH3 start res) (some (geoToH3 goal res)) none fuel).map
          (fun sr => sr.popped.length)) := by
  have hsearch : dijkstra_search g (geoToH3 start res)
      (some (geoToH3 goal res)) none fuel =
      some (dijkstraLoop g (some (geoToH3 goal res)) none fuel
        (initState (geoToH3 start res))) := by
    simp [dijkstra_search, assertCond]
  have main : ∀ st₀ : Store,
      (calculate_travel_time g geoToH3 st₀ start goal dgl res fuel).map
          (fun r => (r.1, r.2.2)) =
        (if (dijkstraLoop g (some (geoToH3 goal res)) none fuel
            (initState (geoToH3 start res))).outcome = RunOutcome.outOfFuel then
          none
        else
          match reconstruct_path
              (dijkstraLoop g (some (geoToH3 goal res)) none fuel
                (initState (geoToH3 start res))).state.came_from
              (dijkstraLoop g (some (geoToH3 goal res)) none fuel
                (initState (geoToH3 start res))).state.cost_so_far
              (geoToH3 start res) (geoToH3 goal res) fuel with
          | none => none
          | some _ =>
            some ((List.lookup (geoToH3 goal res)
                (dijkstraLoop g (some (geoToH3 goal res)) none fuel
                  (initState (geoToH3 start res))).state.cost_so_far).getD dgl,
              ⟨(dijkstraLoop g (some (geoToH3 goal res)) none fuel
                  (initState (geoToH3 start res))).popped.length, false⟩)) := by
    intro st₀
    simp only [calculate_travel_time, hsearch]
    set r := dijkstraLoop g (some (geoToH3 goal res)) none fuel
      (initState (geoToH3 start res)) with hr
    by_cases hro : r.outcome = RunOutcome.outOfFuel
    · simp [hro]
    · simp only [if_neg hro]
      cases hrec : reconstruct_path r.state.came_from r.state.cost_so_far
          (geoToH3 start res) (geoToH3 goal res) fuel with
      | none => simp
      | some p =>
        simp [lookup_cons]
  constructor
  · rw [main st, main st']
  · intro r hr
    have h1 := main st
    rw [hr] at h1
    set L := dijkstraLoop g (some (geoToH3 goal res)) none fuel
      (initState (geoToH3 start res)) with hL
    by_cases hro : L.outcome = RunOutcome.outOfFuel
    · rw [if_pos hro] at h1
      simp at h1
    · rw [if_neg hro] at h1
      cases hrec : reconstruct_path L.state.came_from L.state.cost_so_far
          (geoToH3 start res) (geoToH3 goal res) fuel with
      | none =>
        rw [hrec] at h1
        simp at h1
      | some p =>
        rw [hrec] at h1
        simp only [Option.map_some', Option.some.injEq] at h1
        have hstats : r.2.2 = ⟨L.popped.length, false⟩ := congrArg Prod.snd h1
        have hpos : 0 < L.popped.length := by
          rcases Nat.eq_zero_or_pos fuel with hf | hf
          · subst hf
            exact absurd rfl hro
          · obtain ⟨k, rfl⟩ : ∃ k, fuel = k + 1 := ⟨fuel - 1, by omega⟩
            rw [hL, dijkstraLoop]
            rw [show pqPop (initState (geoToH3 start res)).frontier =
                some ((0, geoToH3 start res),
                  removeEntry (0, geoToH3 start res)
                    [(0, geoToH3 start res)]) from rfl]
            dsimp only
            by_cases hgl : (some (geoToH3 goal res) : Option Cell) =
                some (geoToH3 start res)
            · rw [if_pos hgl]
              simp
            · rw [if_neg hgl]
              simp
        refine ⟨by rw [hstats], by rw [hstats]; exact hpos, ?_⟩
        rw [hsearch, hstats]
        simp


/-- Witness for the amended C3 theorem: applied to the chain graph with
the cache already warm on both sides, discharging the success
hypothesis by evaluating the call. -/
theorem calculate_travel_time_always_reruns_search_witness :
    ((30 : Cost), warmStore, (⟨4, false⟩ : CallStats)).2.2.readDisk = false ∧
    0 < ((30 : Cost), warmStore, (⟨4, false⟩ : CallStats)).2.2.searchPops ∧
    some ((30 : Cost), warmStore, (⟨4, false⟩ : CallStats)).2.2.searchPops =
      (dijkstra_search chainGraph (snapChain (1, 1) 6) (some (snapChain (2, 2) 6))
          none 30).map (fun sr => sr.popped.length) :=
  (calculate_travel_time_always_reruns_search chainGraph snapChain warmStore
    warmStore (1, 1) (2, 2) 5 6 30).2 (30, warmStore, ⟨4, false⟩) (by
      norm_num [-Prod.mk_zero_zero, calculate_travel_time, dijkstra_search,
        assertCond, dijkstraLoop, initState, expand, relaxNeighbor, newCost,
        improvesC, prunedAt, pqPut, pqPop, pqMin, entryLt, removeEntry, dictSet,
        lookup_cons, reconstruct_path, reconstructLoop, chainGraph, snapChain,
        warmStore, H3CostGraph.cost, H3CostGraph.neighbors]
      try exact fun h => RunOutcome.noConfusion h)

/-- C4 (code bug — the fallback is unreachable): on a graph where the
goal is unreachable, the search finishes with an emptied frontier and
the goal absent from the cost surface (second conjunct), and the call
then crashes — `reconstruct_path` at line 216 raises `KeyError` before
the `try/except IndexError` fallback at lines 233–237 can return
`distance_goal` — instead of returning the ceiling value 5 (first
conjunct: the model's `none` is the uncaught exception). -/
theorem calculate_travel_time_unreachable_goal_crashes :
    calculate_travel_time loneGraph snapChain ⟨[], [], []⟩ (1, 1) (2, 2) 5 6 30 =
      none ∧
    (dijkstra_search loneGraph 0 (some 3) none 30).map
      (fun r => (r.outcome, List.lookup 3 r.state.cost_so_far)) =
      some (RunOutcome.emptied, none) := by
  constructor <;>
  · norm_num [-Prod.mk_zero_zero, calculate_travel_time, dijkstra_search,
      assertCond, dijkstraLoop, initState, expand, relaxNeighbor, newCost,
      improvesC, prunedAt, pqPut, pqPop, pqMin, entryLt, removeEntry, dictSet,
      lookup_cons, reconstruct_path, reconstructLoop, loneGraph, snapChain,
      H3CostGraph.cost, H3CostGraph.neighbors]

/-- C5 counterexample: relaxing the edge `0 → 1` of `exitCostGraph`
(cell 0 costs 5, cell 1 absent from the table) records `costs[1] = 5` —
the table value of the exited cell 0 — not the entered cell's defaulted
value 20 that the claim prescribes. -/
theorem relax_uses_exited_cell_cost :
    (dijkstra_search exitCostGraph 0 (some 1) none 5).map
      (fun r => List.lookup 1 r.state.cost_so_far) = some (some 5) ∧
    exitCostGraph.costTable 1 = none ∧
    ¬ ((5 : Cost) = 20) := by
  refine ⟨?_, rfl, by norm_num⟩
  norm_num [-Prod.mk_zero_zero, dijkstra_search, assertCond, dijkstraLoop,
    initState, expand, relaxNeighbor, newCost, improvesC, prunedAt, pqPut,
    pqPop, pqMin, entryLt, removeEntry, dictSet, lookup_cons, exitCostGraph,
    H3CostGraph.cost, H3CostGraph.neighbors]

/-- C5 (amended): the edge weight added during relaxation is the uniform
cost to traverse the cell being exited, independent of which neighbor is
entered: `graph.cost(current, next)` is the cost table's value for
`current` (defaulting to 20 minutes when `current` is absent), the same
for every `next`, and a successful relaxation records exactly
`cost_so_far[current]` plus that value. -/
theorem relax_weight_is_exited_cell (g : H3CostGraph) (dg : Option Cost)
    (current n nn : Cell) (s : SearchState) :
    g.cost current n = (g.costTable current).getD 20 ∧
    g.cost current n = g.cost current nn ∧
    (improvesC s n (newCost g current s n) = true →
      List.lookup n (relaxNeighbor g dg current s n).cost_so_far =
        some ((List.lookup current s.cost_so_far).getD 0 +
          (g.costTable current).getD 20)) := by
  refine ⟨rfl, rfl, fun h => ?_⟩
  simp only [relaxNeighbor, if_pos h]
  exact lookup_dictSet_self _ _ _

/-- Witness for the amended C5 theorem at the concrete relaxation
`0 → 1` on `exitCostGraph`, discharging the improvement hypothesis. -/
theorem relax_weight_is_exited_cell_witness :
    List.lookup 1 (relaxNeighbor exitCostGraph none 0 (initState 0) 1).cost_so_far =
      some ((List.lookup 0 (initState 0).cost_so_far).getD 0 +
        (exitCostGraph.costTable 0).getD 20) :=
  (relax_weight_is_exited_cell exitCostGraph none 0 1 2 (initState 0)).2.2 (by
    norm_num [-Prod.mk_zero_zero, improvesC, newCost, initState, lookup_cons,
      exitCostGraph, H3CostGraph.cost])

/-- C6: the ceiling bound is respected, and boundary costs are still
recorded.  Per relaxation step with ceiling `C` (first group): a
candidate at or above `C` leaves the frontier untouched, an improving
relaxation always records the candidate cost and predecessor whether or
not it is pruned, a non-improving one changes nothing, and an improving
sub-ceiling candidate is enqueued at exactly its relaxed cost.  Across
every run (second group): no frontier entry ever carries a priority
`≥ C`, apart from the initial `(0, start)` seed entry placed before the
loop. -/
theorem ceiling_prunes_enqueue_but_records :
    (∀ (g : H3CostGraph) (C : Cost) (current n : Cell) (s : SearchState),
      (C ≤ newCost g current s n →
        (relaxNeighbor g (some C) current s n).frontier = s.frontier) ∧
      (improvesC s n (newCost g current s n) = true →
        List.lookup n (relaxNeighbor g (some C) current s n).cost_so_far =
            some (newCost g current s n) ∧
          List.lookup n (relaxNeighbor g (some C) current s n).came_from =
            some (some current)) ∧
      (improvesC s n (newCost g current s n) = false →
        relaxNeighbor g (some C) current s n = s) ∧
      (newCost g current s n < C →
        (relaxNeighbor g (some C) current s n).frontier = s.frontier ∨
        (relaxNeighbor g (some C) current s n).frontier =
          pqPut s.frontier n (newCost g current s n))) ∧
    (∀ (g : H3CostGraph) (hexGoal : Option Cell) (C : Cost) (start : Cell)
      (fuel : ℕ) (q : Cost) (u : Cell),
      (q, u) ∈ (dijkstraLoop g hexGoal (some C) fuel (initState start)).state.frontier →
      q < C ∨ (q = 0 ∧ u = start)) := by
  constructor
  · intro g C current n s
    refine ⟨fun hC => ?_, fun him => ?_, fun him => ?_, fun hlt => ?_⟩
    · simp only [relaxNeighbor]
      by_cases him : improvesC s n (newCost g current s n) = true
      · rw [if_pos him]
        simp only [prunedAt]
        rw [if_pos (by simpa using hC)]
      · rw [if_neg him]
    · rw [relaxNeighbor, if_pos him]
      exact ⟨lookup_dictSet_self _ _ _, lookup_dictSet_self _ _ _⟩
    · rw [relaxNeighbor, if_neg (by simp [him])]
    · simp only [relaxNeighbor]
      by_cases him : improvesC s n (newCost g current s n) = true
      · rw [if_pos him]
        simp only [prunedAt]
        rw [if_neg (by simpa using not_le_of_lt hlt)]
        exact Or.inr rfl
      · rw [if_neg him]
        exact Or.inl rfl
  · intro g hexGoal C start fuel q u hmem
    have main := @dijkstraLoop_state_preserve g hexGoal (some C)
      (fun s => ∀ q u, (q, u) ∈ s.frontier → q < C ∨ (q = 0 ∧ u = start))
      (fun s e rest hp hP q u hm => hP q u (by
        obtain ⟨_, hrest, _⟩ := pqPop_spec hp
        exact removeEntry_subset (hrest ▸ hm)))
      (fun s current n hP q u hm => by
        rcases relax_frontier_mem hm with hm | ⟨hpr, rfl, rfl⟩
        · exact hP _ _ hm
        · left
          simp only [prunedAt, decide_eq_false_iff_not] at hpr
          exact lt_of_not_le hpr)
      fuel (initState start)
      (by
        intro q u hm
        simp only [initState, List.mem_singleton] at hm
        rw [Prod.mk.injEq] at hm
        exact Or.inr ⟨hm.1, hm.2⟩)
    exact main q u hmem

/-- Witness for C6 on the chain graph with ceiling 5: the improving
candidate 10 for cell 1 is at the ceiling, so the frontier is unchanged
while the cost and predecessor are still recorded; and the run-level
bound applied to the initial state's seed entry. -/
theorem ceiling_prunes_enqueue_but_records_witness :
    (relaxNeighbor chainGraph (some 5) 0 (initState 0) 1).frontier =
      (initState 0).frontier ∧
    List.lookup 1 (relaxNeighbor chainGraph (some 5) 0 (initState 0) 1).cost_so_far =
      some (newCost chainGraph 0 (initState 0) 1) ∧
    ((0 : Cost) < 5 ∨ ((0 : Cost) = 0 ∧ (0 : Cell) = 0)) := by
  refine ⟨?_, ?_, ?_⟩
  · exact (ceiling_prunes_enqueue_but_records.1 chainGraph 5 0 1 (initState 0)).1
      (by norm_num [-Prod.mk_zero_zero, newCost, initState, lookup_cons,
        chainGraph, H3CostGraph.cost])
  · exact ((ceiling_prunes_enqueue_but_records.1 chainGraph 5 0 1 (initState 0)).2.1
      (by norm_num [-Prod.mk_zero_zero, improvesC, newCost, initState,
        lookup_cons, chainGraph, H3CostGraph.cost])).1
  · exact ceiling_prunes_enqueue_but_records.2 chainGraph none 5 0 0 0 0
      (by simp [dijkstraLoop, initState])

/-- C7 counterexample: a call supplying both a hex goal and a cost
ceiling is accepted — the assert passes, the search runs to the goal
(popping all four cells) — whereas the claim admits a call only when
exactly one of the two is given. -/
theorem dijkstra_accepts_both_goals :
    (dijkstra_search chainGraph 0 (some 3) (some 100) 20).map
      (fun r => (r.outcome, r.popped)) =
      some (RunOutcome.reachedGoal, [0, 1, 2, 3]) := by
  norm_num [-Prod.mk_zero_zero, dijkstra_search, assertCond, dijkstraLoop,
    initState, expand, relaxNeighbor, newCost, improvesC, prunedAt, pqPut,
    pqPop, pqMin, entryLt, removeEntry, dictSet, lookup_cons, chainGraph,
    H3CostGraph.cost, H3CostGraph.neighbors]

/-- C7 (amended): at least one goal must be supplied — `dijkstra_search`
is rejected (before any search work) exactly when the truthiness assert
fails: no hex goal and a `distance_goal` that is `None` or `0` (Python
numeric truthiness).  In particular supplying neither is rejected, and
supplying both is accepted. -/
theorem dijkstra_requires_some_goal (g : H3CostGraph) (start : Cell)
    (hexGoal : Option Cell) (dg : Option Cost) (fuel : ℕ) :
    dijkstra_search g start hexGoal dg fuel = none ↔
      hexGoal = none ∧ (dg = none ∨ dg = some 0) := by
  unfold dijkstra_search
  cases hexGoal with
  | some h => simp [assertCond]
  | none =>
    cases dg with
    | none => simp [assertCond]
    | some d =>
      by_cases hd : d = 0 <;> simp [assertCond, hd]

/-- C9: the predecessor map and the cost map always have the same keys.
First group: a single relaxation preserves key agreement (it writes both
dicts together).  Second group: at every point of every run from the
initial state, the two maps agree on key membership and the start cell
is present in both.  Third group: the initial state maps `start` to the
`None` predecessor sentinel and to cost 0. -/
theorem came_from_cost_so_far_keys_agree :
    (∀ (g : H3CostGraph) (dg : Option Cost) (current n : Cell) (s : SearchState),
      (∀ c, (List.lookup c s.came_from).isSome =
        (List.lookup c s.cost_so_far).isSome) →
      ∀ c, (List.lookup c (relaxNeighbor g dg current s n).came_from).isSome =
        (List.lookup c (relaxNeighbor g dg current s n).cost_so_far).isSome) ∧
    (∀ (g : H3CostGraph) (hexGoal : Option Cell) (dg : Option Cost)
      (start : Cell) (fuel : ℕ),
      (∀ c, (List.lookup c
          (dijkstraLoop g hexGoal dg fuel (initState start)).state.came_from).isSome =
        (List.lookup c
          (dijkstraLoop g hexGoal dg fuel (initState start)).state.cost_so_far).isSome) ∧
      (List.lookup start
        (dijkstraLoop g hexGoal dg fuel (initState start)).state.came_from).isSome = true ∧
      (List.lookup start
        (dijkstraLoop g hexGoal dg fuel (initState start)).state.cost_so_far).isSome = true) ∧
    (∀ start : Cell,
      List.lookup start (initState start).came_from = some none ∧
      List.lookup start (initState start).cost_so_far = some 0) := by
  refine ⟨fun g dg current n s h => relax_keysEq h, ?_, ?_⟩
  · intro g hexGoal dg start fuel
    have main := @dijkstraLoop_state_preserve g hexGoal dg
      (fun s => (∀ c, (List.lookup c s.came_from).isSome =
          (List.lookup c s.cost_so_far).isSome) ∧
        (List.lookup start s.cost_so_far).isSome = true)
      (fun s e rest _ hP => hP)
      (fun s current n hP =>
        ⟨relax_keysEq hP.1, relax_lookup_some_mono hP.2⟩)
      fuel (initState start)
      (by
        constructor
        · intro c
          by_cases hc : c = start <;>
            simp [initState, lookup_cons, hc]
        · simp [initState, lookup_cons])
    refine ⟨main.1, ?_, main.2⟩
    rw [main.1 start]
    exact main.2
  · intro start
    exact ⟨by simp [initState, lookup_cons], by simp [initState, lookup_cons]⟩

/-- Witness for C9, applied to the relaxation `0 → 1` on the chain graph
from the initial state (discharging the key-agreement hypothesis there)
and instantiated at cell 1. -/
theorem came_from_cost_so_far_keys_agree_witness :
    (List.lookup 1
      (relaxNeighbor chainGraph none 0 (initState 0) 1).came_from).isSome =
    (List.lookup 1
      (relaxNeighbor chainGraph none 0 (initState 0) 1).cost_so_far).isSome :=
  came_from_cost_so_far_keys_agree.1 chainGraph none 0 1 (initState 0)
    (fun c => by by_cases hc : c = 0 <;> simp [initState, lookup_cons, hc]) 1

/-! ## Walk lemmas -/

theorem isPath_single (g : H3CostGraph) (s : Cell) : IsPathFromTo g s s [s] := by
  refine ⟨rfl, rfl, ?_⟩
  simp

theorem pathCost_single (g : H3CostGraph) (s : Cell) : pathCost g [s] = 0 := rfl

theorem pathCost_nonneg {g : H3CostGraph} (hnn : ∀ a b : Cell, 0 ≤ g.cost a b) :
    ∀ p : List Cell, 0 ≤ pathCost g p
  | [] => le_refl 0
  | [_] => le_refl 0
  | a :: b :: rest => by
    rw [pathCost]
    exact add_nonneg (hnn a b) (pathCost_nonneg hnn (b :: rest))

theorem pathCost_extend {g : H3CostGraph} {t : Cell} :
    ∀ {p : List Cell}, p.getLast? = some t →
      ∀ n, pathCost g (p ++ [n]) = pathCost g p + g.cost t n := by
  intro p
  induction p with
  | nil => intro h; simp at h
  | cons a rest ih =>
    intro h n
    cases rest with
    | nil =>
      simp only [List.getLast?_singleton, Option.some.injEq] at h
      subst h
      simp only [List.singleton_append, pathCost]
      ring
    | cons b rest' =>
      have h' : (b :: rest').getLast? = some t := by
        simpa [List.getLast?_cons_cons] using h
      have := ih h' n
      simp only [List.cons_append, List.append_eq, pathCost] at this ⊢
      rw [this]
      ring

theorem isPath_extend {g : H3CostGraph} {s t n : Cell} {p : List Cell}
    (hp : IsPathFromTo g s t p) (hn : n ∈ g.neighbors t) :
    IsPathFromTo g s n (p ++ [n]) := by
  obtain ⟨hhead, hlast, hchain⟩ := hp
  refine ⟨?_, ?_, ?_⟩
  · cases p with
    | nil => simp at hhead
    | cons a rest => simpa using hhead
  · simp
  · rw [List.chain'_append]
    refine ⟨hchain, by simp, ?_⟩
    intro x hx y hy
    rw [hlast] at hx
    simp only [Option.mem_def, Option.some.injEq] at hx
    simp only [List.head?_cons, Option.mem_def, Option.some.injEq] at hy
    subst hx
    subst hy
    exact hn

theorem isPath_start_eq {g : H3CostGraph} {s t : Cell} {p : List Cell}
    (hp : IsPathFromTo g s t p) (hst : p = [t]) : s = t := by
  obtain ⟨hhead, _, _⟩ := hp
  subst hst
  simp only [List.head?_cons, Option.some.injEq] at hhead
  exact hhead.symm

/-! ## Predecessor-chain lemmas -/

theorem seg_append {came : List (Cell × Option Cell)} {a b c : Cell}
    {l₁ l₂ : List Cell} (h₁ : PredSeg came a b l₁) (h₂ : PredSeg came b c l₂) :
    PredSeg came a c (l₁ ++ l₂) := by
  induction h₁ with
  | base => simpa using h₂
  | step hlk _ ih => exact PredSeg.step hlk (ih h₂)

theorem seg_preserved {came : List (Cell × Option Cell)} {a t b : Cell}
    {v : Option Cell} {l : List Cell} (h : PredSeg came a t l)
    (hb : b ∉ (a :: l).dropLast) : PredSeg (dictSet b v came) a t l := by
  induction h with
  | base => exact PredSeg.base _
  | @step c c' t' l' hlk hseg ih =>
    rw [show ((c :: c' :: l').dropLast) = c :: (c' :: l').dropLast from rfl] at hb
    simp only [List.mem_cons, not_or] at hb
    refine PredSeg.step ?_ (ih ?_)
    · rw [lookup_dictSet_ne c b v came (fun e => hb.1 e.symm)]
      exact hlk
    · exact fun hmem => hb.2 hmem

theorem seg_split_first {came : List (Cell × Option Cell)} {a t b : Cell} :
    ∀ {l : List Cell}, PredSeg came a t l → b ∈ a :: l →
    ∃ l₁ l₂, l = l₁ ++ l₂ ∧ PredSeg came a b l₁ ∧ PredSeg came b t l₂ ∧
      b ∉ (a :: l₁).dropLast := by
  intro l h
  induction h with
  | base =>
    intro hb
    simp only [List.mem_singleton] at hb
    subst hb
    exact ⟨[], [], rfl, PredSeg.base _, PredSeg.base _, by simp⟩
  | @step c c' t' l' hlk hseg ih =>
    intro hb
    by_cases hbc : b = c
    · subst hbc
      exact ⟨[], c' :: l', rfl, PredSeg.base _, PredSeg.step hlk hseg, by simp⟩
    · have hb' : b ∈ c' :: l' := by
        rcases List.mem_cons.mp hb with h | h
        · exact absurd h.symm (fun e => hbc e.symm)
        · exact h
      obtain ⟨l₁, l₂, hsplit, hs₁, hs₂, hnot⟩ := ih hb'
      refine ⟨c' :: l₁, l₂, by simp [hsplit], PredSeg.step hlk hs₁, hs₂, ?_⟩
      intro hmem
      rw [show ((c :: c' :: l₁).dropLast) = c :: (c' :: l₁).dropLast from rfl]
        at hmem
      rcases List.mem_cons.mp hmem with h | h
      · exact hbc h
      · exact hnot h

theorem seg_cost_mono {g : H3CostGraph} {start : Cell} {dg : Option Cost}
    {s : SearchState} {popped : List Cell}
    (hinv : CoreInv g start dg s popped)
    (hnn : ∀ a b : Cell, 0 ≤ g.cost a b) {c t : Cell} {l : List Cell}
    (hseg : PredSeg s.came_from c t l) {vc : Cost}
    (hc : List.lookup c s.cost_so_far = some vc) :
    ∃ vt, List.lookup t s.cost_so_far = some vt ∧ vt ≤ vc := by
  induction hseg generalizing vc with
  | base => exact ⟨vc, hc, le_refl _⟩
  | @step c' c'' t' l' hlk hseg ih =>
    obtain ⟨vb, va, hvb, hva, hedge⟩ := hinv.edge_bound c' c'' hlk
    have hvv : vb = vc := by
      rw [hvb] at hc
      injection hc
    subst hvv
    obtain ⟨vt, hvt, hle⟩ := ih hva
    refine ⟨vt, hvt, le_trans hle ?_⟩
    have := hnn c'' c'
    linarith

/-! ## Relaxation-step lemmas -/

theorem belowCeil_iff {dg : Option Cost} {x : Cost} :
    BelowCeil dg x ↔ prunedAt dg x = false := by
  cases dg with
  | none => simp [BelowCeil, prunedAt]
  | some c => simp [BelowCeil, prunedAt, not_le]

theorem relax_not_improving {g : H3CostGraph} {dg : Option Cost}
    {current n : Cell} {s : SearchState}
    (him : ¬ improvesC s n (newCost g current s n) = true) :
    relaxNeighbor g dg current s n = s := by
  simp only [relaxNeighbor]
  rw [if_neg him]

theorem relax_improving {g : H3CostGraph} {dg : Option Cost}
    {current n : Cell} {s : SearchState}
    (him : improvesC s n (newCost g current s n) = true) :
    relaxNeighbor g dg current s n =
      { frontier := if prunedAt dg (newCost g current s n) then s.frontier
          else pqPut s.frontier n (newCost g current s n)
        came_from := dictSet n (some current) s.came_from
        cost_so_far := dictSet n (newCost g current s n) s.cost_so_far } := by
  simp only [relaxNeighbor]
  rw [if_pos him]

theorem improvesC_true {s : SearchState} {n : Cell} {nc : Cost}
    (h : improvesC s n nc = true) :
    List.lookup n s.cost_so_far = none ∨
      ∃ old, List.lookup n s.cost_so_far = some old ∧ nc < old := by
  unfold improvesC at h
  cases hl : List.lookup n s.cost_so_far with
  | none => exact Or.inl rfl
  | some old =>
    rw [hl] at h
    simp only [decide_eq_true_eq] at h
    exact Or.inr ⟨old, rfl, h⟩

theorem improvesC_not_true {s : SearchState} {n : Cell} {nc : Cost}
    (h : ¬ improvesC s n nc = true) :
    ∃ old, List.lookup n s.cost_so_far = some old ∧ old ≤ nc := by
  unfold improvesC at h
  cases hl : List.lookup n s.cost_so_far with
  | none => rw [hl] at h; simp at h
  | some old =>
    rw [hl] at h
    simp only [decide_eq_true_eq, not_lt] at h
    exact ⟨old, rfl, h⟩

/-- The heart of the invariant proof: one relaxation step from an
already-popped cell preserves the core invariant, establishes the
relaxedness of the processed edge, and only ever lowers recorded
costs. -/
theorem relax_core_pres {g : H3CostGraph} {start : Cell} {dg : Option Cost}
    {s : SearchState} {popped : List Cell} {current n : Cell}
    (hnn : ∀ a b : Cell, 0 ≤ g.cost a b)
    (hinv : CoreInv g start dg s popped)
    (hcur : current ∈ popped)
    (hn : n ∈ g.neighbors current) :
    CoreInv g start dg (relaxNeighbor g dg current s n) popped ∧
    RelaxedAt g (relaxNeighbor g dg current s n) current n ∧
    (∀ c vc, List.lookup c s.cost_so_far = some vc →
      ∃ vc', List.lookup c (relaxNeighbor g dg current s n).cost_so_far = some vc' ∧
        vc' ≤ vc) ∧
    (∀ u ∈ popped, List.lookup u (relaxNeighbor g dg current s n).cost_so_far =
      List.lookup u s.cost_so_far) := by
  obtain ⟨vcur, hvcur, hopt_cur⟩ := hinv.popped_opt current hcur
  obtain ⟨pcur, hpcur, hpc⟩ := hinv.realizable current vcur hvcur
  have hnc : newCost g current s n = vcur + g.cost current n := by
    rw [newCost, hvcur]
    rfl
  set nc := newCost g current s n with hnc_def
  have hvcur_nn : 0 ≤ vcur := hpc ▸ pathCost_nonneg hnn pcur
  have hnc_nn : 0 ≤ nc := by
    rw [hnc]
    exact add_nonneg hvcur_nn (hnn current n)
  have hcand : IsPathFromTo g start n (pcur ++ [n]) ∧
      pathCost g (pcur ++ [n]) = nc := by
    refine ⟨isPath_extend hpcur hn, ?_⟩
    rw [pathCost_extend hpcur.2.1 n, hpc, hnc]
  by_cases him : improvesC s n nc = true
  swap
  · rw [relax_not_improving him]
    obtain ⟨old, hold, holdle⟩ := improvesC_not_true him
    refine ⟨hinv, ⟨vcur, old, hvcur, hold, ?_⟩,
      fun c vc hc => ⟨vc, hc, le_refl _⟩, fun u _ => rfl⟩
    rw [← hnc]
    exact holdle
  · -- the improving case: n gets a fresh cost, predecessor and (maybe) entry
    have hn_unpopped : n ∉ popped := by
      intro hmem
      obtain ⟨vn, hvn, hoptn⟩ := hinv.popped_opt n hmem
      rcases improvesC_true him with hnone | ⟨old, hold, hlt⟩
      · rw [hvn] at hnone
        exact Option.noConfusion hnone
      · rw [hvn] at hold
        obtain rfl : vn = old := by injection hold
        exact absurd (hoptn _ hcand.1) (by rw [hcand.2]; exact not_le_of_lt hlt)
    have hne_curr : n ≠ current := by
      intro hEq
      subst hEq
      rcases improvesC_true him with hnone | ⟨old, hold, hlt⟩
      · rw [hvcur] at hnone
        exact Option.noConfusion hnone
      · rw [hvcur] at hold
        have hoe : vcur = old := by injection hold
        subst hoe
        rw [hnc] at hlt
        have := hnn n n
        linarith
    have hne_start : n ≠ start := by
      intro hEq
      subst hEq
      rcases improvesC_true him with hnone | ⟨old, hold, hlt⟩
      · rw [hinv.start_cost] at hnone
        exact Option.noConfusion hnone
      · rw [hinv.start_cost] at hold
        have hoe : (0 : Cost) = old := by injection hold
        subst hoe
        exact absurd hlt (not_lt_of_le hnc_nn)
    have hcost' : ∀ c, List.lookup c (relaxNeighbor g dg current s n).cost_so_far =
        if c = n then some nc else List.lookup c s.cost_so_far := by
      intro c
      rw [relax_improving him]
      by_cases hc : c = n
      · subst hc
        rw [if_pos rfl]
        exact lookup_dictSet_self _ _ _
      · rw [if_neg hc]
        exact lookup_dictSet_ne _ _ _ _ hc
    have hcame' : ∀ c, List.lookup c (relaxNeighbor g dg current s n).came_from =
        if c = n then some (some current) else List.lookup c s.came_from := by
      intro c
      rw [relax_improving him]
      by_cases hc : c = n
      · subst hc
        rw [if_pos rfl]
        exact lookup_dictSet_self _ _ _
      · rw [if_neg hc]
        exact lookup_dictSet_ne _ _ _ _ hc
    have hfront' : (relaxNeighbor g dg current s n).frontier =
        if prunedAt dg nc then s.frontier else pqPut s.frontier n nc := by
      rw [relax_improving him]
    -- the new chain reaching start from n, through current
    obtain ⟨lcur, hlcur⟩ := hinv.chains current (by rw [hvcur]; rfl)
    have hn_not_curchain : n ∉ current :: lcur := by
      intro hmem
      obtain ⟨l₁, l₂, _, hs₁, _, _⟩ := seg_split_first hlcur hmem
      obtain ⟨vn, hvn, hvnle⟩ := seg_cost_mono hinv hnn hs₁ hvcur
      rcases improvesC_true him with hnone | ⟨old, hold, hlt⟩
      · rw [hvn] at hnone
        exact Option.noConfusion hnone
      · rw [hvn] at hold
        obtain rfl : vn = old := by injection hold
        have : nc < vn := hlt
        rw [hnc] at this
        have := hnn current n
        linarith
    have hcur_chain' : PredSeg (relaxNeighbor g dg current s n).came_from
        current start lcur := by
      rw [relax_improving him]
      exact seg_preserved hlcur
        (fun hmem => hn_not_curchain (List.dropLast_subset _ hmem))
    have hnchain' : PredSeg (relaxNeighbor g dg current s n).came_from
        n start (current :: lcur) :=
      PredSeg.step (by rw [hcame' n, if_pos rfl]) hcur_chain'
    refine ⟨⟨?_, ?_, ?_, ?_, ?_, ?_, ?_, ?_, ?_, ?_⟩, ?_, ?_, ?_⟩
    · -- keys_eq
      intro c
      rw [hcost' c, hcame' c]
      by_cases hc : c = n
      · simp [hc]
      · rw [if_neg hc, if_neg hc]
        exact hinv.keys_eq c
    · -- start_pred
      rw [hcame' start, if_neg (fun e => hne_start e.symm)]
      exact hinv.start_pred
    · -- start_cost
      rw [hcost' start, if_neg (fun e => hne_start e.symm)]
      exact hinv.start_cost
    · -- realizable
      intro c v hv
      rw [hcost' c] at hv
      by_cases hc : c = n
      · subst hc
        rw [if_pos rfl] at hv
        obtain rfl : nc = v := by injection hv
        exact ⟨pcur ++ [c], hcand.1, hcand.2⟩
      · rw [if_neg hc] at hv
        exact hinv.realizable c v hv
    · -- edge_bound
      intro b a hba
      rw [hcame' b] at hba
      by_cases hb : b = n
      · subst hb
        rw [if_pos rfl] at hba
        have h1 : some current = some a := by injection hba
        have h2 : current = a := by injection h1
        subst h2
        refine ⟨nc, vcur, by rw [hcost' b, if_pos rfl], ?_, ?_⟩
        · rw [hcost' current, if_neg (fun e => hne_curr e.symm)]
          exact hvcur
        · exact le_of_eq hnc.symm
      · rw [if_neg hb] at hba
        obtain ⟨vb, va, hvb, hva, hedge⟩ := hinv.edge_bound b a hba
        by_cases ha : a = n
        · subst ha
          rcases improvesC_true him with hnone | ⟨old, hold, hlt⟩
          · rw [hva] at hnone
            exact Option.noConfusion hnone
          · rw [hva] at hold
            obtain rfl : va = old := by injection hold
            refine ⟨vb, nc, by rw [hcost' b, if_neg hb]; exact hvb,
              by rw [hcost' a, if_pos rfl], ?_⟩
            have := hnn a b
            linarith
        · exact ⟨vb, va, by rw [hcost' b, if_neg hb]; exact hvb,
            by rw [hcost' a, if_neg ha]; exact hva, hedge⟩
    · -- chains
      intro c hc
      rw [hcost' c] at hc
      by_cases hcn : c = n
      · subst hcn
        exact ⟨current :: lcur, hnchain'⟩
      · rw [if_neg hcn] at hc
        obtain ⟨lc, hlc⟩ := hinv.chains c hc
        by_cases hmem : n ∈ c :: lc
        · obtain ⟨l₁, l₂, _, hs₁, _, hnot⟩ := seg_split_first hlc hmem
          have hs₁' : PredSeg (relaxNeighbor g dg current s n).came_from c n l₁ := by
            rw [relax_improving him]
            exact seg_preserved hs₁ hnot
          exact ⟨l₁ ++ (current :: lcur), seg_append hs₁' hnchain'⟩
        · refine ⟨lc, ?_⟩
          rw [relax_improving him]
          exact seg_preserved hlc
            (fun hd => hmem (List.dropLast_subset _ hd))
    · -- frontier_costed
      intro q u hmem
      rcases relax_frontier_mem hmem with hold | ⟨hpr, hq, hun⟩
      · obtain ⟨v, hv, hle⟩ := hinv.frontier_costed q u hold
        by_cases hu : u = n
        · subst hu
          refine ⟨nc, by rw [hcost' u, if_pos rfl], ?_⟩
          rcases improvesC_true him with hnone | ⟨old, hold2, hlt⟩
          · rw [hv] at hnone
            exact Option.noConfusion hnone
          · rw [hv] at hold2
            obtain rfl : v = old := by injection hold2
            exact le_trans (le_of_lt hlt) hle
        · exact ⟨v, by rw [hcost' u, if_neg hu]; exact hv, hle⟩
      · refine ⟨nc, ?_, ?_⟩
        · rw [hun, hcost' n, if_pos rfl]
        · rw [hq]
    · -- frontier_ceil
      intro q u hmem
      rcases relax_frontier_mem hmem with hold | ⟨hpr, hq, hun⟩
      · exact hinv.frontier_ceil q u hold
      · rw [hq] at hpr ⊢
        exact Or.inl (belowCeil_iff.mpr hpr)
    · -- popped_opt
      intro u hu
      obtain ⟨v, hv, hopt⟩ := hinv.popped_opt u hu
      have hune : ¬ u = n := fun e => hn_unpopped (by rw [← e]; exact hu)
      refine ⟨v, ?_, hopt⟩
      rw [hcost' u, if_neg hune]
      exact hv
    · -- unpopped_entry
      intro u v hv hu hbc
      rw [hcost' u] at hv
      by_cases hun : u = n
      · subst hun
        rw [if_pos rfl] at hv
        obtain rfl : nc = v := by injection hv
        rw [hfront', if_neg (by rw [belowCeil_iff.mp hbc]; exact Bool.false_ne_true)]
        exact List.mem_cons_self _ _
      · rw [if_neg hun] at hv
        have hold := hinv.unpopped_entry u v hv hu hbc
        rw [hfront']
        by_cases hpr : prunedAt dg nc = true
        · rw [if_pos hpr]
          exact hold
        · rw [if_neg hpr]
          exact List.mem_cons_of_mem _ hold
    · -- the processed edge is now relaxed
      refine ⟨vcur, nc, ?_, by rw [hcost' n, if_pos rfl], ?_⟩
      · rw [hcost' current, if_neg (fun e => hne_curr e.symm)]
        exact hvcur
      · exact le_of_eq hnc
    · -- recorded costs only decrease
      intro c vc hc
      by_cases hcn : c = n
      · subst hcn
        refine ⟨nc, by rw [hcost' c, if_pos rfl], ?_⟩
        rcases improvesC_true him with hnone | ⟨old, hold, hlt⟩
        · rw [hc] at hnone
          exact Option.noConfusion hnone
        · rw [hc] at hold
          obtain rfl : vc = old := by injection hold
          exact le_of_lt hlt
      · exact ⟨vc, by rw [hcost' c, if_neg hcn]; exact hc, le_refl _⟩
    · -- popped cells keep their recorded costs
      intro u hu
      have hune : ¬ u = n := fun e => hn_unpopped (by rw [← e]; exact hu)
      rw [hcost' u, if_neg hune]

/-! ## The Dijkstra optimality argument -/

theorem isPath_unsnoc {g : H3CostGraph} {s t : Cell} {p : List Cell}
    (hp : IsPathFromTo g s t p) :
    (p = [t] ∧ s = t) ∨
      ∃ q t', p = q ++ [t] ∧ IsPathFromTo g s t' q ∧ t ∈ g.neighbors t' := by
  obtain ⟨hhead, hlast, hchain⟩ := hp
  rcases List.eq_nil_or_concat p with rfl | ⟨q, b, rfl⟩
  · simp at hhead
  · simp only [List.concat_eq_append] at hhead hlast hchain ⊢
    have hb : b = t := by
      have := hlast
      rw [List.getLast?_append] at this
      simpa using this
    subst hb
    rcases List.eq_nil_or_concat q with rfl | ⟨q', t', rfl⟩
    swap
    · simp only [List.concat_eq_append] at hhead hlast hchain ⊢
      right
      rw [List.chain'_append] at hchain
      obtain ⟨hchain', _, hrel⟩ := hchain
      refine ⟨q' ++ [t'], t', rfl, ⟨?_, by simp, hchain'⟩, ?_⟩
      · rw [List.append_assoc] at hhead
        rw [List.head?_append] at hhead ⊢
        cases hq' : q'.head? with
        | none =>
          rw [hq'] at hhead
          simp only [Option.none_or] at hhead ⊢
          simpa using hhead
        | some x =>
          rw [hq'] at hhead
          simpa using hhead
      · apply hrel t'
        · simp
        · simp
    · left
      refine ⟨by simp, ?_⟩
      simp only [List.nil_append, List.head?_cons, Option.some.injEq] at hhead
      exact hhead.symm

theorem reach_lemma {g : H3CostGraph} {start : Cell} {dg : Option Cost}
    {s : SearchState} {popped : List Cell}
    (hnn : ∀ a b : Cell, 0 ≤ g.cost a b)
    (hinv : Inv g start dg s popped) :
    ∀ (k : ℕ) (p : List Cell) (t : Cell), p.length ≤ k →
      IsPathFromTo g start t p →
      (∃ u vu, u ∉ popped ∧ List.lookup u s.cost_so_far = some vu ∧
        vu ≤ pathCost g p) ∨
      (t ∈ popped ∧ ∃ vt, List.lookup t s.cost_so_far = some vt ∧
        vt ≤ pathCost g p) := by
  intro k
  induction k with
  | zero =>
    intro p t hlen hp
    have hnil : p = [] := List.length_eq_zero.mp (Nat.le_zero.mp hlen)
    subst hnil
    exact absurd hp.1 (by simp)
  | succ k ih =>
    intro p t hlen hp
    rcases isPath_unsnoc hp with ⟨rfl, hst⟩ | ⟨q, t', rfl, hq, hnb⟩
    · rw [pathCost_single, ← hst]
      by_cases hsp : start ∈ popped
      · exact Or.inr ⟨hsp, 0, hinv.core.start_cost, le_refl 0⟩
      · exact Or.inl ⟨start, 0, hsp, hinv.core.start_cost, le_refl 0⟩
    · have hqlen : q.length ≤ k := by
        have := hlen
        simp only [List.length_append, List.length_singleton] at this
        omega
      have hstep : pathCost g (q ++ [t]) = pathCost g q + g.cost t' t :=
        pathCost_extend hq.2.1 t
      rcases ih q t' hqlen hq with ⟨u, vu, hu, hvu, hle⟩ | ⟨ht', vt', hvt', hle⟩
      · refine Or.inl ⟨u, vu, hu, hvu, ?_⟩
        rw [hstep]
        have := hnn t' t
        linarith
      · obtain ⟨vu2, vn2, hvu2, hvn2, hrel⟩ :=
          hinv.popped_relaxed t' ht' t hnb
        have hveq : vt' = vu2 := by
          rw [hvt'] at hvu2
          injection hvu2
        subst hveq
        have hbound : vn2 ≤ pathCost g (q ++ [t]) := by
          rw [hstep]
          linarith
        by_cases htp : t ∈ popped
        · exact Or.inr ⟨htp, vn2, hvn2, hbound⟩
        · exact Or.inl ⟨t, vn2, htp, hvn2, hbound⟩

/-- When the minimum frontier entry is popped, the popped cell's
recorded cost is below the popped priority and below every walk cost:
the popped cell is settled optimally. -/
theorem pop_optimal {g : H3CostGraph} {start : Cell} {dg : Option Cost}
    {s : SearchState} {popped : List Cell}
    (hnn : ∀ a b : Cell, 0 ≤ g.cost a b)
    (hinv : Inv g start dg s popped)
    {pq : Cost} {v : Cell} {rest : List (Cost × Cell)}
    (hp : pqPop s.frontier = some ((pq, v), rest)) :
    ∃ val, List.lookup v s.cost_so_far = some val ∧ val ≤ pq ∧
      ∀ p, IsPathFromTo g start v p → val ≤ pathCost g p := by
  obtain ⟨hmem, hrest, hmin⟩ := pqPop_spec hp
  obtain ⟨val, hval, hle⟩ := hinv.core.frontier_costed pq v hmem
  refine ⟨val, hval, hle, ?_⟩
  intro p hpath
  by_cases hvpop : v ∈ popped
  · obtain ⟨v2, hv2, hopt⟩ := hinv.core.popped_opt v hvpop
    rw [hval] at hv2
    obtain rfl : val = v2 := by injection hv2
    exact hopt p hpath
  · rcases reach_lemma hnn hinv p.length p v (le_refl _) hpath with
      ⟨u, vu, hu, hvu, hule⟩ | ⟨hvp, _⟩
    swap
    · exact absurd hvp hvpop
    rcases hinv.core.frontier_ceil pq v hmem with hbc | ⟨hpq0, hvstart⟩
    swap
    · -- the initial (0, start) entry: its cost is 0, below any walk cost
      rw [hpq0] at hle
      exact le_trans (le_trans hle (pathCost_nonneg hnn p))
        (le_refl _)
    · by_cases hbu : BelowCeil dg vu
      · have hentry := hinv.core.unpopped_entry u vu hvu hu hbu
        have := hmin (vu, u) hentry
        exact le_trans hle (le_trans this hule)
      · -- `u` sits at or above the ceiling, but the popped priority is below it
        simp only [BelowCeil, not_forall] at hbu
        obtain ⟨C, hC, hCle⟩ := hbu
        have h1 : pq < C := hbc C hC
        have h2 : C ≤ vu := le_of_not_lt hCle
        calc val ≤ pq := hle
          _ ≤ vu := le_of_lt (lt_of_lt_of_le h1 h2)
          _ ≤ pathCost g p := hule

/-- Removing the popped entry and adding the popped cell to the popped
set preserves the core invariant, and all previously-popped cells except
possibly the fresh one remain fully relaxed. -/
theorem pop_transfer {g : H3CostGraph} {start : Cell} {dg : Option Cost}
    {s : SearchState} {popped : List Cell}
    (hnn : ∀ a b : Cell, 0 ≤ g.cost a b)
    (hinv : Inv g start dg s popped)
    {pq : Cost} {v : Cell} {rest : List (Cost × Cell)}
    (hp : pqPop s.frontier = some ((pq, v), rest)) :
    CoreInv g start dg { s with frontier := rest } (v :: popped) ∧
    (∀ u m, u ∈ v :: popped → m ∈ g.neighbors u →
      ¬ (u = v ∧ m ∈ g.neighbors v) →
      RelaxedAt g { s with frontier := rest } u m) := by
  obtain ⟨hmem, hrest, hmin⟩ := pqPop_spec hp
  obtain ⟨val, hval, hvle, hopt⟩ := pop_optimal hnn hinv hp
  subst hrest
  constructor
  · refine ⟨hinv.core.keys_eq, hinv.core.start_pred, hinv.core.start_cost,
      hinv.core.realizable, hinv.core.edge_bound, hinv.core.chains, ?_, ?_, ?_, ?_⟩
    · intro q u hm
      exact hinv.core.frontier_costed q u (removeEntry_subset hm)
    · intro q u hm
      exact hinv.core.frontier_ceil q u (removeEntry_subset hm)
    · intro u hu
      rcases List.mem_cons.mp hu with rfl | hu
      · exact ⟨val, hval, hopt⟩
      · exact hinv.core.popped_opt u hu
    · intro u vu hvu hu hbc
      have hunv : u ≠ v := fun e => hu (e ▸ List.mem_cons_self v popped)
      have hup : u ∉ popped := fun e => hu (List.mem_cons_of_mem _ e)
      have hment := hinv.core.unpopped_entry u vu hvu hup hbc
      exact mem_removeEntry hment (by
        intro e
        rw [Prod.mk.injEq] at e
        exact hunv e.2)
  · intro u m hu hm hnot
    rcases List.mem_cons.mp hu with rfl | hu
    · exact absurd ⟨rfl, hm⟩ hnot
    · exact hinv.popped_relaxed u hu m hm

/-- `RelaxedAt` is stable under steps that keep the source's cost and
only lower recorded costs. -/
theorem relaxedAt_stable {g : H3CostGraph} {s s' : SearchState} {u m : Cell}
    (hst : List.lookup u s'.cost_so_far = List.lookup u s.cost_so_far)
    (hmono : ∀ c vc, List.lookup c s.cost_so_far = some vc →
      ∃ vc', List.lookup c s'.cost_so_far = some vc' ∧ vc' ≤ vc)
    (h : RelaxedAt g s u m) : RelaxedAt g s' u m := by
  obtain ⟨vu, vm, hvu, hvm, hrel⟩ := h
  obtain ⟨vm', hvm', hvm'le⟩ := hmono m vm hvm
  exact ⟨vu, vm', by rw [hst]; exact hvu, hvm', le_trans hvm'le hrel⟩

/-- Folding the relaxation over a list of the popped cell's neighbors
preserves the core invariant and leaves every popped edge relaxed. -/
theorem expand_pres {g : H3CostGraph} {start current : Cell} {dg : Option Cost}
    {popped : List Cell}
    (hnn : ∀ a b : Cell, 0 ≤ g.cost a b)
    (hcur : current ∈ popped) :
    ∀ (ns : List Cell) (s : SearchState),
      (∀ x ∈ ns, x ∈ g.neighbors current) →
      CoreInv g start dg s popped →
      (∀ u m, u ∈ popped → m ∈ g.neighbors u → ¬ (u = current ∧ m ∈ ns) →
        RelaxedAt g s u m) →
      CoreInv g start dg (ns.foldl (relaxNeighbor g dg current) s) popped ∧
      (∀ u m, u ∈ popped → m ∈ g.neighbors u →
        RelaxedAt g (ns.foldl (relaxNeighbor g dg current) s) u m) := by
  intro ns
  induction ns with
  | nil =>
    intro s _ hinv hrel
    refine ⟨hinv, ?_⟩
    intro u m hu hm
    exact hrel u m hu hm (by simp)
  | cons x ns ih =>
    intro s hns hinv hrel
    have hx : x ∈ g.neighbors current := hns x (List.mem_cons_self _ _)
    obtain ⟨hinv', hrelx, hmono, hstable⟩ := relax_core_pres hnn hinv hcur hx
    rw [List.foldl_cons]
    apply ih _ (fun y hy => hns y (List.mem_cons_of_mem _ hy)) hinv'
    intro u m hu hm hnot
    by_cases hux : u = current ∧ m = x
    · obtain ⟨rfl, rfl⟩ := hux
      exact hrelx
    · have hold : RelaxedAt g s u m := by
        apply hrel u m hu hm
        intro ⟨he, hmem⟩
        rcases List.mem_cons.mp hmem with rfl | hmem
        · exact hux ⟨he, rfl⟩
        · exact hnot ⟨he, hmem⟩
      exact relaxedAt_stable (hstable u hu) hmono hold

/-- The invariant only depends on the popped list through membership. -/
theorem coreInv_congr {g : H3CostGraph} {start : Cell} {dg : Option Cost}
    {s : SearchState} {P Q : List Cell}
    (h : ∀ x, x ∈ P ↔ x ∈ Q)
    (hinv : CoreInv g start dg s P) : CoreInv g start dg s Q := by
  refine ⟨hinv.keys_eq, hinv.start_pred, hinv.start_cost, hinv.realizable,
    hinv.edge_bound, hinv.chains, hinv.frontier_costed, hinv.frontier_ceil,
    ?_, ?_⟩
  · intro u hu
    exact hinv.popped_opt u ((h u).mpr hu)
  · intro u v hv hu hbc
    exact hinv.unpopped_entry u v hv (fun e => hu ((h u).mp e)) hbc

/-- The initial search state satisfies the invariant with nothing popped. -/
theorem init_inv (g : H3CostGraph) (start : Cell) (dg : Option Cost) :
    Inv g start dg (initState start) [] := by
  have hlk : ∀ (c : Cell) (v : Cost),
      List.lookup c [(start, v)] = if c = start then some v else none := by
    intro c v
    rw [lookup_cons]
    by_cases hc : c = start <;> simp [hc, List.lookup]
  constructor
  · refine ⟨?_, ?_, ?_, ?_, ?_, ?_, ?_, ?_, ?_, ?_⟩
    · intro c
      simp only [initState, lookup_cons]
      by_cases hc : c = start <;> simp [hc]
    · simp [initState, lookup_cons]
    · simp [initState, lookup_cons]
    · intro c v hv
      simp only [initState] at hv
      rw [hlk] at hv
      by_cases hc : c = start
      · subst hc
        rw [if_pos rfl] at hv
        obtain rfl : (0 : Cost) = v := by injection hv
        exact ⟨[c], isPath_single g c, pathCost_single g c⟩
      · rw [if_neg hc] at hv
        exact Option.noConfusion hv
    · intro b a hba
      simp only [initState, lookup_cons] at hba
      by_cases hb : b = start
      · rw [if_pos hb] at hba
        obtain h : (none : Option Cell) = some a := by injection hba
        exact Option.noConfusion h
      · rw [if_neg hb] at hba
        exact Option.noConfusion hba
    · intro c hc
      simp only [initState] at hc
      rw [hlk] at hc
      by_cases hcs : c = start
      · subst hcs
        exact ⟨[], PredSeg.base c⟩
      · rw [if_neg hcs] at hc
        simp at hc
    · intro q u hm
      simp only [initState, List.mem_singleton] at hm
      rw [Prod.mk.injEq] at hm
      obtain ⟨rfl, rfl⟩ := hm
      refine ⟨0, ?_, le_refl 0⟩
      simp [initState, lookup_cons]
    · intro q u hm
      simp only [initState, List.mem_singleton] at hm
      rw [Prod.mk.injEq] at hm
      exact Or.inr ⟨hm.1, hm.2⟩
    · intro u hu
      simp at hu
    · intro u v hv hu hbc
      simp only [initState] at hv ⊢
      rw [hlk] at hv
      by_cases hus : u = start
      · subst hus
        rw [if_pos rfl] at hv
        obtain rfl : (0 : Cost) = v := by injection hv
        simp
      · rw [if_neg hus] at hv
        exact Option.noConfusion hv
  · intro u hu
    simp at hu

/-- Running the loop from any state satisfying the invariant yields a
final state satisfying the core invariant relative to everything popped
so far. -/
theorem dijkstraLoop_inv {g : H3CostGraph} {start : Cell}
    {hexGoal : Option Cell} {dg : Option Cost}
    (hnn : ∀ a b : Cell, 0 ≤ g.cost a b) :
    ∀ (fuel : ℕ) (s : SearchState) (popped : List Cell),
      Inv g start dg s popped →
      CoreInv g start dg (dijkstraLoop g hexGoal dg fuel s).state
        ((dijkstraLoop g hexGoal dg fuel s).popped ++ popped) := by
  intro fuel
  induction fuel with
  | zero =>
    intro s popped hinv
    simpa [dijkstraLoop] using hinv.core
  | succ k ih =>
    intro s popped hinv
    rw [dijkstraLoop]
    cases hp : pqPop s.frontier with
    | none =>
      simpa [dijkstraLoop] using hinv.core
    | some pr =>
      obtain ⟨⟨pq, v⟩, rest⟩ := pr
      obtain ⟨hcore1, hrel1⟩ := pop_transfer hnn hinv hp
      dsimp only
      by_cases hg : hexGoal = some v
      · rw [if_pos hg]
        exact hcore1
      · rw [if_neg hg]
        obtain ⟨hcore2, hrel2⟩ := expand_pres hnn
          (List.mem_cons_self v popped) (g.neighbors v)
          { s with frontier := rest } (fun x hx => hx) hcore1 hrel1
        have hinv2 : Inv g start dg
            (expand g dg v { s with frontier := rest }) (v :: popped) :=
          ⟨hcore2, fun u hu m hm => hrel2 u m hu hm⟩
        have := ih (expand g dg v { s with frontier := rest }) (v :: popped) hinv2
        apply coreInv_congr _ this
        intro x
        simp only [List.mem_append, List.mem_cons]
        constructor
        · rintro (hx | hx | hx)
          · exact Or.inl (Or.inr hx)
          · exact Or.inl (Or.inl hx)
          · exact Or.inr hx
        · rintro ((hx | hx) | hx)
          · exact Or.inr (Or.inl hx)
          · exact Or.inl hx
          · exact Or.inr (Or.inr hx)

/-- C1: Dijkstra optimality.  For every cost graph with non-negative
per-cell traversal costs, every start cell and every accepted goal
parameter, the `cost_so_far` map returned by `dijkstra_search` assigns
to every cell popped from the frontier before termination the exact
least cumulative cost of any walk from `start` to that cell — the cost
is attained by a concrete walk and bounds every walk from below, i.e. it
matches a brute-force shortest-path computation — and the start cell is
recorded at cost 0. -/
theorem dijkstra_popped_costs_optimal (g : H3CostGraph) (start : Cell)
    (hexGoal : Option Cell) (dg : Option Cost) (fuel : ℕ)
    (hnn : ∀ a b : Cell, 0 ≤ g.cost a b) (r : SearchResult)
    (hrun : dijkstra_search g start hexGoal dg fuel = some r) :
    List.lookup start r.state.cost_so_far = some 0 ∧
    ∀ v ∈ r.popped, ∃ val, List.lookup v r.state.cost_so_far = some val ∧
      OptimalCostTo g start v val := by
  have hr : r = dijkstraLoop g hexGoal dg fuel (initState start) := by
    unfold dijkstra_search at hrun
    by_cases h : assertCond hexGoal dg = true
    · rw [if_pos h] at hrun
      exact (Option.some.injEq _ _ ▸ hrun).symm
    · rw [if_neg h] at hrun
      exact Option.noConfusion hrun
  have main := @dijkstraLoop_inv g start hexGoal dg hnn fuel (initState start)
    [] (init_inv g start dg)
  rw [← hr] at main
  refine ⟨main.start_cost, fun v hv => ?_⟩
  obtain ⟨val, hval, hopt⟩ := main.popped_opt v (by simpa using hv)
  obtain ⟨p, hp, hpc⟩ := main.realizable v val hval
  exact ⟨val, hval, ⟨p, hp, hpc⟩, hopt⟩

/-- Witness for C1 on a concrete instance: a graph with constant cost 1
and no neighbors, searching from cell 0 for goal cell 0, which the run
pops and settles at cost 0. -/
theorem dijkstra_popped_costs_optimal_witness :
    List.lookup 0
      (⟨⟨[], [(0, none)], [(0, 0)]⟩, RunOutcome.reachedGoal,
        [0]⟩ : SearchResult).state.cost_so_far = some 0 ∧
    ∀ v ∈ (⟨⟨[], [(0, none)], [(0, 0)]⟩, RunOutcome.reachedGoal,
        [0]⟩ : SearchResult).popped,
      ∃ val, List.lookup v
          (⟨⟨[], [(0, none)], [(0, 0)]⟩, RunOutcome.reachedGoal,
            [0]⟩ : SearchResult).state.cost_so_far = some val ∧
        OptimalCostTo loneGraph 0 v val :=
  dijkstra_popped_costs_optimal loneGraph 0 (some 0) none 5
    (fun a b => by norm_num [H3CostGraph.cost, loneGraph])
    ⟨⟨[], [(0, none)], [(0, 0)]⟩, RunOutcome.reachedGoal, [0]⟩
    (by
      norm_num [-Prod.mk_zero_zero, dijkstra_search, assertCond, dijkstraLoop,
        initState, expand, relaxNeighbor, newCost, improvesC, prunedAt, pqPut,
        pqPop, pqMin, entryLt, removeEntry, dictSet, lookup_cons, loneGraph,
        H3CostGraph.cost, H3CostGraph.neighbors])

/-! ## `reconstruct_path` lemmas -/

theorem lookup_append (k : Cell) (l₁ l₂ : List (Cell × α)) :
    List.lookup k (l₁ ++ l₂) =
      match List.lookup k l₁ with
      | some v => some v
      | none => List.lookup k l₂ := by
  induction l₁ with
  | nil => simp [List.lookup]
  | cons e rest ih =>
    obtain ⟨k', v'⟩ := e
    rw [List.cons_append, lookup_cons, lookup_cons]
    by_cases hk : k = k'
    · simp [hk]
    · rw [if_neg hk, if_neg hk]
      exact ih

theorem lookup_mem {k : Cell} {v : α} {l : List (Cell × α)}
    (h : List.lookup k l = some v) : (k, v) ∈ l := by
  induction l with
  | nil => simp [List.lookup] at h
  | cons e rest ih =>
    obtain ⟨k', v'⟩ := e
    rw [lookup_cons] at h
    by_cases hk : k = k'
    · rw [if_pos hk] at h
      obtain rfl : v' = v := by injection h
      rw [hk]
      exact List.mem_cons_self _ _
    · rw [if_neg hk] at h
      exact List.mem_cons_of_mem _ (ih h)

theorem mem_dictSet {e : Cell × α} {k : Cell} {v : α} {d : List (Cell × α)}
    (h : e ∈ dictSet k v d) : e ∈ d ∨ e = (k, v) := by
  induction d with
  | nil => exact Or.inr (by simpa [dictSet] using h)
  | cons e' rest ih =>
    obtain ⟨k', v'⟩ := e'
    simp only [dictSet] at h
    by_cases hk : k' = k
    · rw [if_pos hk] at h
      rcases List.mem_cons.mp h with rfl | h
      · exact Or.inr rfl
      · exact Or.inl (List.mem_cons_of_mem _ h)
    · rw [if_neg hk] at h
      rcases List.mem_cons.mp h with rfl | h
      · exact Or.inl (List.mem_cons_self _ _)
      · rcases ih h with h | h
        · exact Or.inl (List.mem_cons_of_mem _ h)
        · exact Or.inr h

/-- The walk terminates whenever the predecessor links from the goal
form a chain to `start` (as the search invariant guarantees). -/
theorem reconstruct_terminates {came : List (Cell × Option Cell)}
    {cost : List (Cell × Cost)} {start : Cell}
    (hsp : List.lookup start came = some none) :
    ∀ (l : List Cell) (c : Cell), PredSeg came c start l →
      ∀ path₀, ∃ res,
        reconstructLoop came cost start (l.length + 1) c path₀ = some res := by
  intro l
  induction l with
  | nil =>
    intro c hseg path₀
    cases hseg
    rw [reconstructLoop]
    rw [if_pos rfl]
    exact ⟨_, rfl⟩
  | cons c' l ih =>
    intro c hseg path₀
    cases hseg with
    | step hlk hseg' =>
      have hcs : c ≠ start := by
        intro e
        subst e
        rw [hsp] at hlk
        have h2 : (none : Option Cell) = some c' := by injection hlk
        exact Option.noConfusion h2
      rw [show (c' :: l).length + 1 = (l.length + 1) + 1 from rfl,
        reconstructLoop]
      rw [if_neg hcs, hlk]
      exact ih c' hseg' _

/-- Every entry of a reconstructed profile comes from the accumulator,
is the final `(start, 0)` entry, or records a non-start cell's
`cost_so_far.get(cell, 0)` value. -/
theorem reconstruct_mem {came : List (Cell × Option Cell)}
    {cost : List (Cell × Cost)} {start : Cell} :
    ∀ (fuel : ℕ) (c : Cell) (path₀ res : List (Cell × Cost)),
      reconstructLoop came cost start fuel c path₀ = some res →
      ∀ e ∈ res, e ∈ path₀ ∨ e = (start, 0) ∨
        (e.1 ≠ start ∧ e.2 = (List.lookup e.1 cost).getD 0) := by
  intro fuel
  induction fuel with
  | zero =>
    intro c path₀ res h
    exact absurd h (by rw [reconstructLoop]; simp)
  | succ k ih =>
    intro c path₀ res h e he
    rw [reconstructLoop] at h
    by_cases hc : c = start
    · rw [if_pos hc] at h
      obtain rfl : dictSet start 0 path₀ = res := by injection h
      rcases mem_dictSet he with he | he
      · exact Or.inl he
      · exact Or.inr (Or.inl he)
    · rw [if_neg hc] at h
      cases hlk : List.lookup c came with
      | none =>
        rw [hlk] at h
        exact Option.noConfusion h
      | some o =>
        cases o with
        | none =>
          rw [hlk] at h
          exact Option.noConfusion h
        | some prev =>
          rw [hlk] at h
          have := ih prev _ res h e he
          rcases this with hmem | hrest
          · rcases mem_dictSet hmem with hmem | hmem
            · exact Or.inl hmem
            · subst hmem
              exact Or.inr (Or.inr ⟨hc, rfl⟩)
          · exact Or.inr hrest

/-- Key presence in the accumulator is preserved to the final profile. -/
theorem reconstruct_lookup_mono {came : List (Cell × Option Cell)}
    {cost : List (Cell × Cost)} {start : Cell} :
    ∀ (fuel : ℕ) (c : Cell) (path₀ res : List (Cell × Cost)) (k : Cell),
      reconstructLoop came cost start fuel c path₀ = some res →
      (List.lookup k path₀).isSome = true →
      (List.lookup k res).isSome = true := by
  intro fuel
  induction fuel with
  | zero =>
    intro c path₀ res k h
    exact absurd h (by rw [reconstructLoop]; simp)
  | succ n ih =>
    intro c path₀ res k h hk
    rw [reconstructLoop] at h
    by_cases hc : c = start
    · rw [if_pos hc] at h
      obtain rfl : dictSet start 0 path₀ = res := by injection h
      rw [lookup_dictSet_isSome]
      rw [hk]
      simp
    · rw [if_neg hc] at h
      cases hlk : List.lookup c came with
      | none =>
        rw [hlk] at h
        exact Option.noConfusion h
      | some o =>
        cases o with
        | none =>
          rw [hlk] at h
          exact Option.noConfusion h
        | some prev =>
          rw [hlk] at h
          refine ih prev _ res k h ?_
          rw [lookup_dictSet_isSome, hk]
          simp

/-- The reconstructed profile contains its goal cell. -/
theorem reconstruct_goal_present {came : List (Cell × Option Cell)}
    {cost : List (Cell × Cost)} {start : Cell} :
    ∀ (fuel : ℕ) (c : Cell) (path₀ res : List (Cell × Cost)),
      reconstructLoop came cost start fuel c path₀ = some res →
      c = start ∨ (List.lookup c res).isSome = true := by
  intro fuel
  induction fuel with
  | zero =>
    intro c path₀ res h
    exact absurd h (by rw [reconstructLoop]; simp)
  | succ n _ =>
    intro c path₀ res h
    rw [reconstructLoop] at h
    by_cases hc : c = start
    · exact Or.inl hc
    · rw [if_neg hc] at h
      cases hlk : List.lookup c came with
      | none =>
        rw [hlk] at h
        exact Option.noConfusion h
      | some o =>
        cases o with
        | none =>
          rw [hlk] at h
          exact Option.noConfusion h
        | some prev =>
          rw [hlk] at h
          refine Or.inr (reconstruct_lookup_mono n prev _ res c h ?_)
          rw [lookup_dictSet_isSome]
          simp

/-- The reconstructed profile ends with the forced `(start, 0)` entry. -/
theorem reconstruct_shape {came : List (Cell × Option Cell)}
    {cost : List (Cell × Cost)} {start : Cell} :
    ∀ (fuel : ℕ) (c : Cell) (path₀ res : List (Cell × Cost)),
      reconstructLoop came cost start fuel c path₀ = some res →
      List.lookup start path₀ = none →
      ∃ pre, res = pre ++ [(start, 0)] := by
  intro fuel
  induction fuel with
  | zero =>
    intro c path₀ res h
    exact absurd h (by rw [reconstructLoop]; simp)
  | succ n ih =>
    intro c path₀ res h hstart
    rw [reconstructLoop] at h
    by_cases hc : c = start
    · rw [if_pos hc] at h
      obtain rfl : dictSet start 0 path₀ = res := by injection h
      exact ⟨path₀, dictSet_of_lookup_none hstart⟩
    · rw [if_neg hc] at h
      cases hlk : List.lookup c came with
      | none =>
        rw [hlk] at h
        exact Option.noConfusion h
      | some o =>
        cases o with
        | none =>
          rw [hlk] at h
          exact Option.noConfusion h
        | some prev =>
          rw [hlk] at h
          refine ih prev _ res h ?_
          rw [lookup_dictSet_ne start c _ path₀ (fun e => hc e.symm)]
          exact hstart

/-- C8: path validity.  For every `(came_from, cost_so_far)` pair
produced by `dijkstra_search` from `start` on a graph with non-negative
costs, and every cell `gl` present in `cost_so_far`, `reconstruct_path`
(run with enough fuel) succeeds and returns a cost profile that ends
with the forced `(start, 0)` entry and whose entry for `gl` is exactly
`cost_so_far[gl]`. -/
theorem reconstruct_path_valid (g : H3CostGraph) (start : Cell)
    (hexGoal : Option Cell) (dg : Option Cost) (fuel : ℕ)
    (hnn : ∀ a b : Cell, 0 ≤ g.cost a b) (r : SearchResult)
    (hrun : dijkstra_search g start hexGoal dg fuel = some r)
    (gl : Cell) (gval : Cost)
    (hg : List.lookup gl r.state.cost_so_far = some gval) :
    ∃ (rfuel : ℕ) (path pre : List (Cell × Cost)),
      reconstruct_path r.state.came_from r.state.cost_so_far start gl rfuel =
        some path ∧
      path = pre ++ [(start, 0)] ∧
      List.lookup gl path = some gval := by
  have hr : r = dijkstraLoop g hexGoal dg fuel (initState start) := by
    unfold dijkstra_search at hrun
    by_cases h : assertCond hexGoal dg = true
    · rw [if_pos h] at hrun
      exact (Option.some.injEq _ _ ▸ hrun).symm
    · rw [if_neg h] at hrun
      exact Option.noConfusion hrun
  have main := @dijkstraLoop_inv g start hexGoal dg hnn fuel (initState start)
    [] (init_inv g start dg)
  rw [← hr] at main
  obtain ⟨l, hseg⟩ := main.chains gl (by rw [hg]; rfl)
  obtain ⟨res, hres⟩ := reconstruct_terminates main.start_pred l gl hseg []
  have hgv : ∀ v, List.lookup gl res = some v → v = gval := by
    intro v hv
    have hclass := reconstruct_mem _ _ _ _ hres (gl, v) (lookup_mem hv)
    rcases hclass with hmem | heq | ⟨hne, hval⟩
    · simp at hmem
    · rw [Prod.mk.injEq] at heq
      obtain ⟨rfl, rfl⟩ := heq
      have h0 := main.start_cost
      rw [hg] at h0
      have h1 : gval = 0 := by injection h0
      exact h1.symm
    · simp only at hval
      rw [hg] at hval
      exact hval
  have hfound : (List.lookup gl res).isSome = true := by
    rcases reconstruct_goal_present _ _ _ _ hres with hgs | hsome
    · subst hgs
      obtain ⟨pre, rfl⟩ := reconstruct_shape _ _ _ _ hres (by rfl)
      rw [lookup_append]
      cases hpre : List.lookup gl pre with
      | some v => simp
      | none => simp [lookup_cons]
    · exact hsome
  obtain ⟨v, hv⟩ := Option.isSome_iff_exists.mp hfound
  obtain ⟨pre, hpre⟩ := reconstruct_shape _ _ _ _ hres (by rfl)
  exact ⟨l.length + 1, res, pre, hres, hpre, by rw [hv, hgv v hv]⟩

/-- Witness for C8: the pair produced by searching the chain graph from
cell 0 toward cell 3 reconstructs a profile for goal cell 2 (recorded at
cost 20) ending at `(0, 0)`. -/
theorem reconstruct_path_valid_witness :
    ∃ (rfuel : ℕ) (path pre : List (Cell × Cost)),
      reconstruct_path [(0, none), (1, some 0), (2, some 1), (3, some 2)]
        [(0, 0), (1, 10), (2, 20), (3, 30)] 0 2 rfuel = some path ∧
      path = pre ++ [(0, 0)] ∧
      List.lookup 2 path = some 20 := by
  have hrun : dijkstra_search chainGraph 0 (some 3) none 30 =
      some (⟨⟨[],
        [(0, none), (1, some 0), (2, some 1), (3, some 2)],
        [(0, 0), (1, 10), (2, 20), (3, 30)]⟩,
        RunOutcome.reachedGoal, [0, 1, 2, 3]⟩ : SearchResult) := by
    norm_num [-Prod.mk_zero_zero, dijkstra_search, assertCond, dijkstraLoop,
      initState, expand, relaxNeighbor, newCost, improvesC, prunedAt, pqPut,
      pqPop, pqMin, entryLt, removeEntry, dictSet, lookup_cons, chainGraph,
      H3CostGraph.cost, H3CostGraph.neighbors]
  have := reconstruct_path_valid chainGraph 0 (some 3) none 30
    (fun a b => by norm_num [H3CostGraph.cost, chainGraph])
    ⟨⟨[],
      [(0, none), (1, some 0), (2, some 1), (3, some 2)],
      [(0, 0), (1, 10), (2, 20), (3, 30)]⟩,
      RunOutcome.reachedGoal, [0, 1, 2, 3]⟩ hrun 2 20
    (by norm_num [-Prod.mk_zero_zero, lookup_cons])
  exact this

/-! ## Termination of the ceiling-bounded search -/

theorem pathCost_ge_len {g : H3CostGraph} {ε : Cost}
    (hb : ∀ a b : Cell, ε ≤ g.cost a b) :
    ∀ p : List Cell, ((p.length - 1 : ℕ) : Cost) * ε ≤ pathCost g p
  | [] => by simp [pathCost]
  | [_] => by simp [pathCost]
  | a :: b :: rest => by
    have ih := pathCost_ge_len hb (b :: rest)
    rw [pathCost]
    have hlen : (a :: b :: rest).length - 1 = ((b :: rest).length - 1) + 1 := by
      simp
    rw [hlen]
    push_cast
    have := hb a b
    linarith

theorem revPathsN_mono {g : H3CostGraph} {start : Cell} {a : List Cell} {n : ℕ}
    (h : a ∈ revPathsN g start n) : a ∈ revPathsN g start (n + 1) := by
  rw [revPathsN]
  exact List.mem_append_left _ h

theorem start_mem_revPathsN (g : H3CostGraph) (start : Cell) :
    ∀ n, [start] ∈ revPathsN g start n
  | 0 => by simp [revPathsN]
  | n + 1 => revPathsN_mono (start_mem_revPathsN g start n)

theorem revPaths_complete {g : H3CostGraph} {start : Cell} :
    ∀ (n : ℕ) (p : List Cell) (u : Cell),
      IsPathFromTo g start u p → p.length ≤ n + 1 →
      p.reverse ∈ revPathsN g start n := by
  intro n
  induction n with
  | zero =>
    intro p u hp hlen
    rcases isPath_unsnoc hp with ⟨rfl, hst⟩ | ⟨q, t', rfl, hq, _⟩
    · rw [← hst]
      simpa using start_mem_revPathsN g start 0
    · exfalso
      have hq0 : q ≠ [] := by
        intro e
        subst e
        exact absurd hq.1 (by simp)
      have := List.length_pos.mpr hq0
      simp only [List.length_append, List.length_singleton] at hlen
      omega
  | succ k ih =>
    intro p u hp hlen
    rcases isPath_unsnoc hp with ⟨rfl, hst⟩ | ⟨q, t', rfl, hq, hnb⟩
    · rw [← hst]
      simpa using start_mem_revPathsN g start (k + 1)
    · have hqlen : q.length ≤ k + 1 := by
        simp only [List.length_append, List.length_singleton] at hlen
        omega
      have hqrev := ih q t' hq hqlen
      rw [revPathsN]
      apply List.mem_append_right
      rw [List.mem_flatMap]
      refine ⟨q.reverse, hqrev, ?_⟩
      have hqhead : q.reverse.head? = some t' := by
        rw [List.head?_reverse]
        exact hq.2.1
      cases hqr : q.reverse with
      | nil =>
        rw [hqr] at hqhead
        simp at hqhead
      | cons c rest =>
        rw [hqr] at hqhead
        simp only [List.head?_cons, Option.some.injEq] at hqhead
        subst hqhead
        rw [List.reverse_append, List.reverse_singleton, List.singleton_append,
          hqr]
        exact List.mem_map.mpr ⟨u, hnb, rfl⟩

theorem mem_pathCostsTo {g : H3CostGraph} {start u : Cell} {p : List Cell}
    {N : ℕ} (hp : IsPathFromTo g start u p) (hlen : p.length ≤ N + 1) :
    pathCost g p ∈ pathCostsTo g start N u := by
  rw [pathCostsTo, List.mem_toFinset]
  apply List.mem_map.mpr
  refine ⟨p.reverse, ?_, by rw [List.reverse_reverse]⟩
  apply List.mem_filter.mpr
  refine ⟨revPaths_complete N p u hp hlen, ?_⟩
  rw [List.head?_reverse]
  simp [hp.2.1]

theorem mem_cellsFin {g : H3CostGraph} {start u : Cell} {p : List Cell}
    {N : ℕ} (hp : IsPathFromTo g start u p) (hlen : p.length ≤ N + 1) :
    u ∈ cellsFin g start N := by
  rw [cellsFin, List.mem_toFinset]
  apply List.mem_filterMap.mpr
  refine ⟨p.reverse, revPaths_complete N p u hp hlen, ?_⟩
  rw [List.head?_reverse]
  exact hp.2.1

theorem phiCell_congr {g : H3CostGraph} {start : Cell} {N : ℕ}
    {s s' : SearchState} {u : Cell}
    (h : List.lookup u s.cost_so_far = List.lookup u s'.cost_so_far) :
    phiCell g start N s u = phiCell g start N s' u := by
  rw [phiCell, phiCell, h]

theorem phiCell_lt_of_improve {g : H3CostGraph} {start : Cell} {N : ℕ}
    {s s' : SearchState} {u : Cell} {nc : Cost}
    (hnew : List.lookup u s'.cost_so_far = some nc)
    (hmem : nc ∈ pathCostsTo g start N u)
    (hold : List.lookup u s.cost_so_far = none ∨
      ∃ old, List.lookup u s.cost_so_far = some old ∧ nc < old) :
    phiCell g start N s' u < phiCell g start N s u := by
  rw [phiCell, phiCell, hnew]
  rcases hold with h | ⟨old, h, hlt⟩
  · rw [h]
    apply Finset.card_lt_card
    rw [Finset.ssubset_iff_of_subset (Finset.filter_subset _ _)]
    exact ⟨nc, hmem, by simp⟩
  · rw [h]
    apply Finset.card_lt_card
    have hsub : (pathCostsTo g start N u).filter (fun x => x < nc) ⊆
        (pathCostsTo g start N u).filter (fun x => x < old) := by
      intro x hx
      rw [Finset.mem_filter] at hx ⊢
      exact ⟨hx.1, lt_trans hx.2 hlt⟩
    rw [Finset.ssubset_iff_of_subset hsub]
    refine ⟨nc, Finset.mem_filter.mpr ⟨hmem, by simpa using hlt⟩, ?_⟩
    simp

theorem path_len_le_of_cost_lt {g : H3CostGraph} {ε C : Cost} {p : List Cell}
    (hε : 0 < ε) (hb : ∀ a b : Cell, ε ≤ g.cost a b)
    (hlt : pathCost g p < C) :
    p.length ≤ (⌈C / ε⌉).toNat + 1 := by
  have h1 : ((p.length - 1 : ℕ) : Cost) * ε ≤ pathCost g p := pathCost_ge_len hb p
  have h2 : ((p.length - 1 : ℕ) : Cost) < C / ε := by
    rw [lt_div_iff₀ hε]
    exact lt_of_le_of_lt h1 hlt
  have h4 : ((p.length - 1 : ℕ) : ℚ) < (⌈C / ε⌉ : ℚ) :=
    lt_of_lt_of_le h2 (Int.le_ceil _)
  have h5 : ((p.length - 1 : ℕ) : ℤ) < ⌈C / ε⌉ := by exact_mod_cast h4
  omega

theorem path_len_le_of_cost_zero {g : H3CostGraph} {ε : Cost} {p : List Cell}
    (hε : 0 < ε) (hb : ∀ a b : Cell, ε ≤ g.cost a b)
    (h0 : pathCost g p ≤ 0) : p.length ≤ 1 := by
  have h1 : ((p.length - 1 : ℕ) : Cost) * ε ≤ 0 :=
    le_trans (pathCost_ge_len hb p) h0
  have hle : ((p.length - 1 : ℕ) : ℚ) ≤ 0 := by nlinarith
  have hz : ((p.length - 1 : ℕ) : ℚ) = 0 := le_antisymm hle (Nat.cast_nonneg _)
  have : p.length - 1 = 0 := by exact_mod_cast hz
  omega

theorem relax_measure_le {g : H3CostGraph} {start current n : Cell}
    {dg : Option Cost} {N : ℕ} {s : SearchState} {vcur : Cost}
    {pcur : List Cell}
    (hn : n ∈ g.neighbors current)
    (hvc : List.lookup current s.cost_so_far = some vcur)
    (hpcur : IsPathFromTo g start current pcur)
    (hpcost : pathCost g pcur = vcur)
    (hplen : pcur.length ≤ N) :
    searchMeasure g start N (relaxNeighbor g dg current s n) ≤
      searchMeasure g start N s := by
  by_cases him : improvesC s n (newCost g current s n) = true
  · rw [relax_improving him]
    set s' : SearchState :=
      { frontier := if prunedAt dg (newCost g current s n) then s.frontier
          else pqPut s.frontier n (newCost g current s n)
        came_from := dictSet n (some current) s.came_from
        cost_so_far := dictSet n (newCost g current s n) s.cost_so_far }
      with hs'
    have hnc : newCost g current s n = vcur + g.cost current n := by
      rw [newCost, hvc]
      rfl
    have hcand : IsPathFromTo g start n (pcur ++ [n]) := isPath_extend hpcur hn
    have hcandcost : pathCost g (pcur ++ [n]) = newCost g current s n := by
      rw [pathCost_extend hpcur.2.1 n, hpcost, hnc]
    have hcandlen : (pcur ++ [n]).length ≤ N + 1 := by
      simp only [List.length_append, List.length_singleton]
      omega
    have hmemPC : newCost g current s n ∈ pathCostsTo g start N n :=
      hcandcost ▸ mem_pathCostsTo hcand hcandlen
    have hnFin : n ∈ cellsFin g start N := mem_cellsFin hcand hcandlen
    have hnew : List.lookup n s'.cost_so_far = some (newCost g current s n) := by
      rw [hs']
      exact lookup_dictSet_self n (newCost g current s n) s.cost_so_far
    have hphilt : phiCell g start N s' n < phiCell g start N s n :=
      phiCell_lt_of_improve hnew hmemPC (improvesC_true him)
    have heqrest : ∀ u ∈ (cellsFin g start N).erase n,
        phiCell g start N s' u = phiCell g start N s u := by
      intro u hu
      have hune : u ≠ n := (Finset.mem_erase.mp hu).1
      apply phiCell_congr
      rw [hs']
      exact lookup_dictSet_ne u n (newCost g current s n) s.cost_so_far hune
    have hsum : (cellsFin g start N).sum (phiCell g start N s') + 1 ≤
        (cellsFin g start N).sum (phiCell g start N s) := by
      have e1 : phiCell g start N s' n +
          ((cellsFin g start N).erase n).sum (phiCell g start N s') =
          (cellsFin g start N).sum (phiCell g start N s') :=
        Finset.add_sum_erase _ (phiCell g start N s') hnFin
      have e2 : phiCell g start N s n +
          ((cellsFin g start N).erase n).sum (phiCell g start N s) =
          (cellsFin g start N).sum (phiCell g start N s) :=
        Finset.add_sum_erase _ (phiCell g start N s) hnFin
      have e3 : ((cellsFin g start N).erase n).sum (phiCell g start N s') =
          ((cellsFin g start N).erase n).sum (phiCell g start N s) :=
        Finset.sum_congr rfl heqrest
      omega
    have hflen : s'.frontier.length ≤ s.frontier.length + 1 := by
      rw [hs']
      by_cases hpr : prunedAt dg (newCost g current s n) = true
      · simp [hpr]
      · simp [hpr, pqPut]
    rw [searchMeasure, searchMeasure]
    omega
  · rw [relax_not_improving him]

theorem expand_measure {g : H3CostGraph} {start current : Cell}
    {dg : Option Cost} {N : ℕ} {popped : List Cell}
    (hnn : ∀ a b : Cell, 0 ≤ g.cost a b)
    (hcur : current ∈ popped)
    {vcur : Cost} {pcur : List Cell}
    (hpcur : IsPathFromTo g start current pcur)
    (hpcost : pathCost g pcur = vcur)
    (hplen : pcur.length ≤ N) :
    ∀ (ns : List Cell) (s : SearchState),
      (∀ x ∈ ns, x ∈ g.neighbors current) →
      CoreInv g start dg s popped →
      List.lookup current s.cost_so_far = some vcur →
      searchMeasure g start N (ns.foldl (relaxNeighbor g dg current) s) ≤
        searchMeasure g start N s := by
  intro ns
  induction ns with
  | nil =>
    intro s _ _ _
    exact le_refl _
  | cons x xs ih =>
    intro s hns hinv hvc
    rw [List.foldl_cons]
    have hx : x ∈ g.neighbors current := hns x (List.mem_cons_self _ _)
    obtain ⟨hinv', _, _, hstable⟩ := relax_core_pres hnn hinv hcur hx
    have hvc' : List.lookup current
        (relaxNeighbor g dg current s x).cost_so_far = some vcur := by
      rw [hstable current hcur]
      exact hvc
    exact le_trans
      (ih (relaxNeighbor g dg current s x)
        (fun y hy => hns y (List.mem_cons_of_mem _ hy)) hinv' hvc')
      (relax_measure_le hx hvc hpcur hpcost hplen)

theorem loop_empties {g : H3CostGraph} {start : Cell} {C ε : Cost}
    (hε : 0 < ε) (hb : ∀ a b : Cell, ε ≤ g.cost a b) :
    ∀ (k : ℕ) (s : SearchState) (popped : List Cell),
      Inv g start (some C) s popped →
      searchMeasure g start ((⌈C / ε⌉).toNat + 1) s < k →
      (dijkstraLoop g none (some C) k s).outcome = RunOutcome.emptied := by
  have hnn : ∀ a b : Cell, 0 ≤ g.cost a b :=
    fun a b => le_trans (le_of_lt hε) (hb a b)
  intro k
  induction k with
  | zero =>
    intro s popped _ hm
    omega
  | succ k ih =>
    intro s popped hinv hm
    rw [dijkstraLoop]
    cases hp : pqPop s.frontier with
    | none => rfl
    | some pr =>
      obtain ⟨⟨pq, v⟩, rest⟩ := pr
      dsimp only
      rw [if_neg (by simp : ¬ (none : Option Cell) = some v)]
      show (dijkstraLoop g none (some C) k
        (expand g (some C) v { s with frontier := rest })).outcome =
        RunOutcome.emptied
      obtain ⟨hcore1, hrel1⟩ := pop_transfer hnn hinv hp
      obtain ⟨hcore2, hrel2⟩ := expand_pres hnn (List.mem_cons_self v popped)
        (g.neighbors v) { s with frontier := rest } (fun x hx => hx) hcore1 hrel1
      have hinv2 : Inv g start (some C)
          (expand g (some C) v { s with frontier := rest }) (v :: popped) :=
        ⟨hcore2, fun u hu m hm' => hrel2 u m hu hm'⟩
      obtain ⟨hmem, hrest, hmin⟩ := pqPop_spec hp
      obtain ⟨val, hval, hvle, _⟩ := pop_optimal hnn hinv hp
      obtain ⟨pv, hpv, hpvcost⟩ := hinv.core.realizable v val hval
      have hplen : pv.length ≤ (⌈C / ε⌉).toNat + 1 := by
        rcases hinv.core.frontier_ceil pq v hmem with hbc | ⟨hpq0, _⟩
        · exact path_len_le_of_cost_lt hε hb
            (by rw [hpvcost]; exact lt_of_le_of_lt hvle (hbc C rfl))
        · have h0 : pathCost g pv ≤ 0 := by
            rw [hpvcost]
            rw [hpq0] at hvle
            exact hvle
          have := path_len_le_of_cost_zero hε hb h0
          omega
      have hvc1 : List.lookup v
          ({ s with frontier := rest } : SearchState).cost_so_far = some val :=
        hval
      have hm1 : searchMeasure g start ((⌈C / ε⌉).toNat + 1)
          { s with frontier := rest } + 1 =
          searchMeasure g start ((⌈C / ε⌉).toNat + 1) s := by
        have hphis : (cellsFin g start ((⌈C / ε⌉).toNat + 1)).sum
            (phiCell g start ((⌈C / ε⌉).toNat + 1) { s with frontier := rest }) =
            (cellsFin g start ((⌈C / ε⌉).toNat + 1)).sum
            (phiCell g start ((⌈C / ε⌉).toNat + 1) s) :=
          Finset.sum_congr rfl (fun u _ => phiCell_congr rfl)
        have hl := removeEntry_length hmem
        rw [searchMeasure, searchMeasure, hphis]
        dsimp only
        rw [hrest]
        omega
      have hm2 : searchMeasure g start ((⌈C / ε⌉).toNat + 1)
          (expand g (some C) v { s with frontier := rest }) ≤
          searchMeasure g start ((⌈C / ε⌉).toNat + 1)
          { s with frontier := rest } := by
        rw [expand]
        exact expand_measure hnn (List.mem_cons_self v popped) hpv hpvcost
          hplen (g.neighbors v) { s with frontier := rest }
          (fun x hx => hx) hcore1 hvc1
      exact ih (expand g (some C) v { s with frontier := rest })
        (v :: popped) hinv2 (by omega)

/-- C10: implicit termination of the ceiling-bounded search.  For every
cost graph whose per-cell traversal cost is bounded below by a positive
constant, `dijkstra_search` invoked with a (truthy, i.e. nonzero)
`distance_goal` cost ceiling and no `hex_goal` terminates: there is a
fuel bound past which the embedded loop always ends by genuinely
emptying its frontier — never by running out of fuel, the only artifact
of the embedding — so the source's unbounded `while` loop performs only
finitely many iterations. -/
theorem dijkstra_ceiling_terminates (g : H3CostGraph) (start : Cell)
    (C ε : Cost) (hε : 0 < ε) (hb : ∀ a b : Cell, ε ≤ g.cost a b)
    (hC : C ≠ 0) :
    ∃ fuel₀ : ℕ, ∀ fuel, fuel₀ ≤ fuel → ∃ r : SearchResult,
      dijkstra_search g start none (some C) fuel = some r ∧
      r.outcome = RunOutcome.emptied := by
  refine ⟨searchMeasure g start ((⌈C / ε⌉).toNat + 1) (initState start) + 1, ?_⟩
  intro fuel hf
  have hassert : assertCond none (some C) = true := by
    simp [assertCond, hC]
  refine ⟨dijkstraLoop g none (some C) fuel (initState start), ?_, ?_⟩
  · rw [dijkstra_search, if_pos hassert]
  · exact loop_empties hε hb fuel (initState start) []
      (init_inv g start (some C)) (by omega)

theorem dijkstra_ceiling_terminates_witness :
    ∃ fuel₀ : ℕ, ∀ fuel, fuel₀ ≤ fuel → ∃ r : SearchResult,
      dijkstra_search chainGraph 0 none (some 5) fuel = some r ∧
      r.outcome = RunOutcome.emptied :=
  dijkstra_ceiling_terminates chainGraph 0 5 10 (by norm_num)
    (by
      intro a b
      norm_num [chainGraph, H3CostGraph.cost])
    (by norm_num)

end FrictionH3
